import Mathlib

/-!
Shallow embedding of the fpaq0f2 adaptive order-0 arithmetic codec
(src/ext/fpaq0f2/fpaq0f2.cpp) and verification of its specification.

Machine integers are modelled as `Nat` with explicit `% 2 ^ 32` where the
source works in 32-bit unsigned arithmetic.  Byte buffers are `List Nat`.
The `size_t` sentinel `SIZE_MAX` returned for invalid arguments is modelled
by `Option`: `none` is `SIZE_MAX`, `some r` is any other return value.
Out-of-bounds reads (which are undefined behaviour in C) are modelled as
reading 0, and the DECOMPRESS constructor additionally reports whether an
out-of-bounds access occurred.
-/

namespace Fpaq0f2

/-- Reciprocal table from the source: `dt[i] = 32768/(i+i+3)` (integer division). -/
def dt (i : Nat) : Nat := 32768 / (i + i + 3)

/-- StateMap: `cxt` is the context of the last prediction, `t` maps a context
to a packed cell (prediction in high 24 bits, count in low 8 bits). -/
structure StateMap where
  cxt : Nat
  t : Nat → Nat

namespace StateMap

/-- Cell initializer, the body of the constructor loop:
`n = (i&1)*2+(i&2)+(i>>2&1)+(i>>3&1)+(i>>4&1)+(i>>5&1)+(i>>6&1)+(i>>7&1)+3; t[i] = n<<28|6`. -/
def initCell (i : Nat) : Nat :=
  ((i &&& 1) * 2 + (i &&& 2) + ((i >>> 2) &&& 1) + ((i >>> 3) &&& 1) + ((i >>> 4) &&& 1) +
      ((i >>> 5) &&& 1) + ((i >>> 6) &&& 1) + ((i >>> 7) &&& 1) + 3) <<< 28 ||| 6

/-- Constructor: every cell is initialized by `initCell`; `cxt = 0`. -/
def init : StateMap := ⟨0, fun i => initCell i⟩

/-- `p(cx)`: record `cxt = cx` and return `t[cx] >> 16`. -/
def p (sm : StateMap) (cx : Nat) : Nat × StateMap :=
  (sm.t cx >>> 16, { sm with cxt := cx })

/-- The new value of cell `t[cxt]` after `update(y, limit)`:
`n = t&255; p = t>>14; if (n<limit) ++t; t += ((y<<18)-p)*dt[n] & 0xffffff00`,
all in 32-bit unsigned arithmetic (the signed intermediate product wraps mod 2^32). -/
def updateCell (tv y limit : Nat) : Nat :=
  let n := tv &&& 255
  let pv := tv >>> 14
  let t1 := if n < limit then (tv + 1) % 2 ^ 32 else tv
  let delta : Int := (((y <<< 18 : Nat) : Int) - (pv : Int)) * (dt n : Int)
  (t1 + ((delta % (2 ^ 32 : Int)).toNat &&& 0xffffff00)) % 2 ^ 32

/-- `update(y, limit)` rewrites cell `cxt`. -/
def update (sm : StateMap) (y limit : Nat) : StateMap :=
  { sm with t := fun i => if i = sm.cxt then updateCell (sm.t sm.cxt) y limit else sm.t i }

end StateMap

/-- Predictor: partial-byte context `cxt` (0..255), a StateMap over 16-bit keys,
and a per-bit-position 8-bit history `state[256]`. -/
structure Predictor where
  cxt : Nat
  sm : StateMap
  state : Nat → Nat

namespace Predictor

/-- Constructor: `cxt = 0`, `sm` with 0x10000 contexts, `state[i] = 0x66`. -/
def init : Predictor := ⟨0, StateMap.init, fun _ => 0x66⟩

/-- `p()`: `sm.p(cxt<<8 | state[cxt])`. -/
def p (pr : Predictor) : Nat × Predictor :=
  let r := pr.sm.p (pr.cxt <<< 8 ||| pr.state pr.cxt)
  (r.1, { pr with sm := r.2 })

/-- `update(y)`: `sm.update(y, 90); (st += st+y) &= 255; if ((cxt += cxt+y) >= 256) cxt = 0`. -/
def update (pr : Predictor) (y : Nat) : Predictor :=
  let sm1 := pr.sm.update y 90
  let st1 := (pr.state pr.cxt + pr.state pr.cxt + y) &&& 255
  { cxt := if pr.cxt + pr.cxt + y ≥ 256 then 0 else pr.cxt + pr.cxt + y,
    sm := sm1,
    state := fun i => if i = pr.cxt then st1 else pr.state i }

end Predictor

/-- Coder state: predictor, the two byte buffers with cursor and size, the
interval `[x1, x2]` and the decoder window `x`.  In COMPRESS mode `outBuf`
holds the bytes written so far and `bufIdx = outBuf.length`; in DECOMPRESS
mode `inBuf` is the archive and `bufIdx` the read cursor. -/
structure Encoder where
  predictor : Predictor
  inBuf : List Nat
  outBuf : List Nat
  bufIdx : Nat
  bufSize : Nat
  x1 : Nat
  x2 : Nat
  x : Nat

namespace Encoder

/-- COMPRESS-mode constructor: `x1 = 0`, `x2 = 0xffffffff`, `bufIdx = 0`. -/
def initCompress (size : Nat) : Encoder :=
  ⟨Predictor.init, [], [], 0, size, 0, 0xffffffff, 0⟩

/-- One iteration of the DECOMPRESS constructor loop:
`int c = 0; if (bufIdx <= bufSize) c = inBuf[bufIdx++]; x = (x<<8) + (c&0xff)`.
The returned flag records whether the read `inBuf[bufIdx]` was out of bounds
(index at or past the end of the buffer); the out-of-bounds value is modelled as 0. -/
def initStepD (e : Encoder) : Encoder × Bool :=
  if e.bufIdx ≤ e.bufSize then
    let c := e.inBuf.getD e.bufIdx 0
    let e1 := { e with x := ((e.x <<< 8) + (c &&& 0xff)) % 2 ^ 32, bufIdx := e.bufIdx + 1 }
    (e1, decide (e.inBuf.length ≤ e.bufIdx))
  else
    ({ e with x := ((e.x <<< 8) + 0) % 2 ^ 32 }, false)

/-- DECOMPRESS-mode constructor over archive `inp` (so `bufSize = inp.length`):
four iterations of `initStepD`; also returns whether any iteration read out of
bounds. -/
def initDecompress (inp : List Nat) : Encoder × Bool :=
  let e0 : Encoder := ⟨Predictor.init, inp, [], 0, inp.length, 0, 0xffffffff, 0⟩
  let s1 := initStepD e0
  let s2 := initStepD s1.1
  let s3 := initStepD s2.1
  let s4 := initStepD s3.1
  (s4.1, s1.2 || s2.2 || s3.2 || s4.2)

/-- 32-bit unsigned subtraction `a - b` (wrap-around). -/
def sub32 (a b : Nat) : Nat := (a + 2 ^ 32 - b) % 2 ^ 32

/-- The interval split shared by encode and decode:
`xmid = x1 + ((x2-x1)>>16)*p + (((x2-x1)&0xffff)*p>>16)` in 32-bit arithmetic. -/
def xmid (x1 x2 pv : Nat) : Nat :=
  (x1 + (sub32 x2 x1 >>> 16) * pv + ((sub32 x2 x1 &&& 0xffff) * pv) >>> 16) % 2 ^ 32

/-- Append byte `b` to the output: `outBuf[bufIdx++] = b`. -/
def emit (e : Encoder) (b : Nat) : Encoder :=
  { e with outBuf := e.outBuf ++ [b], bufIdx := e.bufIdx + 1 }

/-- The renormalization shift `x1 <<= 8; x2 = (x2<<8)+255` (32-bit). -/
def shift (e : Encoder) : Encoder :=
  { e with x1 := (e.x1 <<< 8) % 2 ^ 32, x2 := ((e.x2 <<< 8) + 255) % 2 ^ 32 }

/-- The encode-side renormalization loop
`while (((x1^x2)&0xff000000)==0) { emit x2>>24 or return false; shift }`.
The loop exits after at most 4 shifts (after 4 shifts `x1 = 0` and
`x2 = 0xffffffff`), so fuel 4 realizes the while-loop exactly
(`renormE_four`). -/
def renormE : Nat → Encoder → Bool × Encoder
  | 0, e => (true, e)
  | fuel + 1, e =>
    if (e.x1 ^^^ e.x2) &&& 0xff000000 = 0 then
      if e.bufIdx < e.bufSize then renormE fuel (shift (emit e (e.x2 >>> 24)))
      else (false, e)
    else (true, e)

/-- `encode(y)`: split the interval at `xmid`, narrow it according to `y`,
train the predictor, renormalize.  Returns false on output-buffer overflow. -/
def encode (e : Encoder) (y : Nat) : Bool × Encoder :=
  let pr := e.predictor.p
  let e1 := { e with predictor := pr.2 }
  let xm := xmid e1.x1 e1.x2 pr.1
  let e2 := if y ≠ 0 then { e1 with x2 := xm } else { e1 with x1 := (xm + 1) % 2 ^ 32 }
  let e3 := { e2 with predictor := e2.predictor.update y }
  renormE 4 e3

/-- The decode-side refill `int c = 0; if (bufIdx < bufSize) c = inBuf[bufIdx++]`. -/
def readByteD (e : Encoder) : Nat × Encoder :=
  if e.bufIdx < e.bufSize then (e.inBuf.getD e.bufIdx 0, { e with bufIdx := e.bufIdx + 1 })
  else (0, e)

/-- The decode-side renormalization loop: shift, then `x = (x<<8) + c` with the
next archive byte `c` (0 past the end).  Fuel 4 realizes the while loop. -/
def renormD : Nat → Encoder → Encoder
  | 0, e => e
  | fuel + 1, e =>
    if (e.x1 ^^^ e.x2) &&& 0xff000000 = 0 then
      let e1 := shift e
      let rc := readByteD e1
      renormD fuel { rc.2 with x := ((rc.2.x <<< 8) + rc.1) % 2 ^ 32 }
    else e

/-- `decode()`: split at `xmid`; `y = 1` iff `x <= xmid`; narrow, train,
renormalize; return the decoded bit. -/
def decode (e : Encoder) : Nat × Encoder :=
  let pr := e.predictor.p
  let e1 := { e with predictor := pr.2 }
  let xm := xmid e1.x1 e1.x2 pr.1
  let yd : Nat × Encoder :=
    if e1.x ≤ xm then (1, { e1 with x2 := xm }) else (0, { e1 with x1 := (xm + 1) % 2 ^ 32 })
  let e3 := { yd.2 with predictor := yd.2.predictor.update yd.1 }
  (yd.1, renormD 4 e3)

/-- `flush()` (COMPRESS mode): run the renormalization loop, then emit one
final byte `x2 >> 24`; false on overflow. -/
def flush (e : Encoder) : Bool × Encoder :=
  match renormE 4 e with
  | (false, e1) => (false, e1)
  | (true, e1) =>
    if e1.bufIdx < e1.bufSize then (true, emit e1 (e1.x2 >>> 24)) else (false, e1)

end Encoder

/-- The inner loop of `fpaq0f2_compress` over one byte:
`for (int i = 7; i >= 0; --i) encode((c>>i)&1)`; `encodeBits 8 c` encodes the
8 bits of `c` from MSB down to LSB. -/
def encodeBits : Nat → Nat → Encoder → Bool × Encoder
  | 0, _, e => (true, e)
  | i + 1, c, e =>
    match e.encode ((c >>> i) &&& 1) with
    | (false, e1) => (false, e1)
    | (true, e1) => encodeBits i c e1

/-- The outer loop of `fpaq0f2_compress`: for each input byte, encode a framing
1 bit and then its 8 bits. -/
def compressLoop : List Nat → Encoder → Bool × Encoder
  | [], e => (true, e)
  | c :: rest, e =>
    match e.encode 1 with
    | (false, e1) => (false, e1)
    | (true, e1) =>
      match encodeBits 8 c e1 with
      | (false, e2) => (false, e2)
      | (true, e2) => compressLoop rest e2

/-- `fpaq0f2_compress(in, len, out, bufsize)`.  `inNull`/`outNull` model NULL
buffer pointers (`len` is `inp.length`).  Result: `none` models the `SIZE_MAX`
invalid-argument sentinel; otherwise `some (r, out)` gives the `size_t` return
value `r` and the bytes written to the output buffer. -/
def fpaq0f2_compress (inNull : Bool) (inp : List Nat) (outNull : Bool) (bufsize : Nat) :
    Option (Nat × List Nat) :=
  if inNull ∧ 0 < inp.length then none
  else if outNull ∧ 0 < bufsize then none
  else
    match compressLoop inp (Encoder.initCompress bufsize) with
    | (false, e) => some (bufsize + 1, e.outBuf)
    | (true, e) =>
      match e.encode 0 with
      | (false, e1) => some (bufsize + 1, e1.outBuf)
      | (true, e1) =>
        match e1.flush with
        | (false, e2) => some (bufsize + 1, e2.outBuf)
        | (true, e2) => some (e2.bufIdx, e2.outBuf)

/-- The inner loop of `fpaq0f2_decompress`: `while (c < 256) c += c + decode()`.
Starting from `c = 1` the loop runs exactly 8 iterations, so fuel 8 realizes
the while loop. -/
def decodeByteLoop : Nat → Nat → Encoder → Nat × Encoder
  | 0, c, e => (c, e)
  | f + 1, c, e =>
    if c < 256 then
      let d := e.decode
      decodeByteLoop f (c + c + d.1) d.2
    else (c, e)

/-- The outer loop of `fpaq0f2_decompress`: while `decode()` returns 1, decode
8 bits into a byte `c - 256` and store it at `out[idx++]` (overflow result
`bufsize + 1` if the output buffer is full).  The loop writes at most
`bufsize` bytes, so fuel `bufsize + 1` realizes the while loop. -/
def decompressLoop : Nat → Encoder → Nat → List Nat → Nat → Nat × List Nat
  | 0, _, idx, out, _ => (idx, out)
  | f + 1, e, idx, out, bufsize =>
    let d := e.decode
    if d.1 = 0 then (idx, out)
    else
      let b := decodeByteLoop 8 1 d.2
      if idx < bufsize then decompressLoop f b.2 (idx + 1) (out ++ [b.1 - 256]) bufsize
      else (bufsize + 1, out)

/-- `fpaq0f2_decompress(in, len, out, bufsize)`; conventions as in
`fpaq0f2_compress`. -/
def fpaq0f2_decompress (inNull : Bool) (inp : List Nat) (outNull : Bool) (bufsize : Nat) :
    Option (Nat × List Nat) :=
  if inNull ∧ 0 < inp.length then none
  else if outNull ∧ 0 < bufsize then none
  else some (decompressLoop (bufsize + 1) (Encoder.initDecompress inp).1 0 [] bufsize)

end Fpaq0f2

namespace Fpaq0f2

/-! ## Arithmetic helper lemmas -/

theorem and255_eq_mod (n : Nat) : n &&& 255 = n % 256 := Nat.and_pow_two_sub_one_eq_mod n 8

theorem and65535_eq_mod (n : Nat) : n &&& 65535 = n % 65536 := Nat.and_pow_two_sub_one_eq_mod n 16

theorem and_two_eq (n : Nat) : n &&& 2 = 2 * (n / 2 % 2) := by
  have h := Nat.and_two_pow n 1
  rw [Nat.testBit_to_div_mod] at h
  norm_num at h
  rcases Nat.mod_two_eq_zero_or_one (n / 2) with h2 | h2 <;> simp [h2] at h ⊢ <;> omega

theorem mask_hi_mod (x : Nat) : (x &&& 0xffffff00) % 256 = 0 := by
  rw [← and255_eq_mod, Nat.and_assoc]
  have h : (4294967040 : Nat) &&& 255 = 0 := by decide
  rw [h, Nat.and_zero]

/-! ## C3: StateMap construction -/

/-- Population count of the low 8 bits of a natural number. -/
def popCount8 (n : Nat) : Nat :=
  n % 2 + n / 2 % 2 + n / 4 % 2 + n / 8 % 2 + n / 16 % 2 + n / 32 % 2 + n / 64 % 2 +
    n / 128 % 2

/-- C3 (counterexample): the claim that after construction every StateMap cell
satisfies `t[i] = (popcount(i & 0xFF) + 3) << 28 | 6` fails at `i = 1`: the
constructor computes `(i&1)*2 + (i&2) + ...`, which counts bit 0 (and bit 1)
twice, so `t[1] = 5 << 28 | 6` while the claim demands `4 << 28 | 6`. -/
theorem c3_counterexample :
    ¬ StateMap.init.t 1 = ((popCount8 (1 &&& 0xff) + 3) <<< 28 ||| 6) := by
  decide

/-- C3 (amended): after construction, every cell satisfies
`t[i] = (w + 3) << 28 | 6` where `w` is the popcount of the low 8 bits of `i`
with the two lowest bits (the two most recent history bits) counted twice;
the count field starts at 6. -/
theorem c3_amended (i : Nat) :
    StateMap.init.t i =
      ((popCount8 (i &&& 0xff) + (i &&& 1) + ((i >>> 1) &&& 1) + 3) <<< 28) ||| 6 := by
  show StateMap.initCell i = _
  unfold StateMap.initCell popCount8
  have e2 : i &&& 2 = 2 * (i / 2 % 2) := and_two_eq i
  have e255 : i &&& 255 = i % 256 := and255_eq_mod i
  rw [e2, e255]
  simp only [Nat.shiftRight_eq_div_pow, Nat.and_one_is_mod]
  have hc : ∀ a b : Nat, a = b → a <<< 28 ||| 6 = b <<< 28 ||| 6 := by
    intro a b h; rw [h]
  apply hc
  norm_num
  omega

/-! ## C9: Predictor construction -/

/-- C9: at Predictor construction `cxt = 0` and every history entry
`state[0..255]` is `0x66`; both coder constructors start from this predictor,
and the very first prediction therefore uses StateMap context key
`cxt << 8 | state[cxt] = 0x66`. -/
theorem c9_init :
    Predictor.init.cxt = 0 ∧
    (∀ i, i < 256 → Predictor.init.state i = 0x66) ∧
    (∀ n, (Encoder.initCompress n).predictor = Predictor.init) ∧
    (∀ inp, (Encoder.initDecompress inp).1.predictor = Predictor.init) ∧
    Predictor.init.cxt <<< 8 ||| Predictor.init.state Predictor.init.cxt = 0x66 := by
  refine ⟨rfl, fun i _ => rfl, fun n => rfl, fun inp => ?_, rfl⟩
  have h : ∀ e : Encoder, (Encoder.initStepD e).1.predictor = e.predictor := by
    intro e
    unfold Encoder.initStepD
    split <;> rfl
  unfold Encoder.initDecompress
  simp only [h]

/-- C9 witness: the universally quantified parts applied at concrete inputs. -/
theorem c9_init_witness :
    Predictor.init.state 7 = 0x66 ∧ (Encoder.initDecompress [1, 2]).1.predictor = Predictor.init :=
  ⟨c9_init.2.1 7 (by decide), c9_init.2.2.2.1 [1, 2]⟩

end Fpaq0f2

namespace Fpaq0f2

/-! ## C5: StateMap update formula -/

theorem c5_core (tv limit D : Nat) (ht : tv < 2 ^ 32) (hl : limit ≤ 254) (hD : D % 256 = 0)
    (hDlt : D < 2 ^ 32) :
    ((if tv % 256 < limit then (tv + 1) % 2 ^ 32 else tv) + D) % 2 ^ 32 =
      (tv + (if tv % 256 < limit then 1 else 0) + D) % 2 ^ 32 ∧
    (((if tv % 256 < limit then (tv + 1) % 2 ^ 32 else tv) + D) % 2 ^ 32) % 256 =
      tv % 256 + (if tv % 256 < limit then 1 else 0) := by
  obtain ⟨d, hd⟩ : 256 ∣ D := Nat.dvd_of_mod_eq_zero hD
  constructor <;> split <;> omega

/-- C5: for every 32-bit cell value `tv`, bit `y` and limit 1..254,
`update` produces, in exact 32-bit wrap-around arithmetic, the value
`(t + (1 if n < limit else 0)) + (((y<<18) - p) * dt[n] & 0xFFFFFF00)` with
`n = t & 0xFF` and `p = t >> 14`; and the masked addition leaves the low
8 bits unchanged, so the count changes only by the conditional increment. -/
theorem c5_update (tv y limit : Nat) (ht : tv < 2 ^ 32) (hy : y ≤ 1) (hl1 : 1 ≤ limit)
    (hl2 : limit ≤ 254) :
    StateMap.updateCell tv y limit =
      (tv + (if tv &&& 255 < limit then 1 else 0) +
        ((((((y <<< 18 : Nat) : Int) - ((tv >>> 14 : Nat) : Int)) * (dt (tv &&& 255) : Int)) %
            (2 ^ 32 : Int)).toNat &&& 0xffffff00)) % 2 ^ 32 ∧
    StateMap.updateCell tv y limit &&& 255 =
      (tv &&& 255) + (if tv &&& 255 < limit then 1 else 0) := by
  unfold StateMap.updateCell
  dsimp only
  have hD256 : (((((y <<< 18 : Nat) : Int) - ((tv >>> 14 : Nat) : Int)) * (dt (tv &&& 255) : Int) %
      (2 ^ 32 : Int)).toNat &&& 0xffffff00) % 256 = 0 := mask_hi_mod _
  generalize hg : (((((y <<< 18 : Nat) : Int) - ((tv >>> 14 : Nat) : Int)) *
      (dt (tv &&& 255) : Int) % (2 ^ 32 : Int)).toNat &&& 0xffffff00) = D
  rw [hg] at hD256
  have hDlt : D < 2 ^ 32 := by
    rw [← hg]
    calc ((((y <<< 18 : Nat) : Int) - ((tv >>> 14 : Nat) : Int)) * (dt (tv &&& 255) : Int) %
        (2 ^ 32 : Int)).toNat &&& 0xffffff00 ≤ 0xffffff00 := Nat.and_le_right
    _ < 2 ^ 32 := by norm_num
  simp only [and255_eq_mod]
  obtain ⟨d, hd⟩ : 256 ∣ D := Nat.dvd_of_mod_eq_zero hD256
  constructor
  · split <;> omega
  · split <;> omega

/-- C5 witness: the count-preservation conclusion at the cell value
`0x70000006` (the initial cell of context 0x66), `y = 1`, `limit = 90`. -/
theorem c5_update_witness :
    StateMap.updateCell 0x70000006 1 90 &&& 255 =
      (0x70000006 &&& 255) + (if 0x70000006 &&& 255 < 90 then 1 else 0) :=
  (c5_update 0x70000006 1 90 (by decide) (by decide) (by decide) (by decide)).2

/-! ## C6: the interval split never overflows -/

theorem mul_split_div (w pv : Nat) :
    (w / 65536) * pv + (w % 65536) * pv / 65536 = w * pv / 65536 := by
  conv_rhs => rw [← Nat.div_add_mod w 65536]
  rw [add_mul, mul_assoc, Nat.mul_add_div (by norm_num)]

/-- C6: for `x1 ≤ x2 < 2^32` (so `width = x2 - x1` is the 32-bit difference)
and `p ≤ 65535`, the split expression equals `x1 + width * p / 65536` exactly
(hence also modulo 2^32), both partial products stay below `2^32`, and the
full sum stays below `2^32`, so the computation never wraps. -/
theorem c6_split (x1 x2 pv : Nat) (h12 : x1 ≤ x2) (h2 : x2 < 2 ^ 32) (hp : pv ≤ 65535) :
    Encoder.xmid x1 x2 pv = x1 + (x2 - x1) * pv / 65536 ∧
    (Encoder.sub32 x2 x1 >>> 16) * pv < 2 ^ 32 ∧
    (Encoder.sub32 x2 x1 &&& 0xffff) * pv < 2 ^ 32 ∧
    x1 + (x2 - x1) * pv / 65536 < 2 ^ 32 := by
  have hs : Encoder.sub32 x2 x1 = x2 - x1 := by unfold Encoder.sub32; omega
  have hq : (x2 - x1) / 65536 ≤ 65535 := by omega
  have hr : (x2 - x1) % 65536 ≤ 65535 := by omega
  have hb1 : ((x2 - x1) / 65536) * pv < 2 ^ 32 := by
    calc ((x2 - x1) / 65536) * pv ≤ 65535 * 65535 := Nat.mul_le_mul hq hp
    _ < 2 ^ 32 := by norm_num
  have hb2 : ((x2 - x1) % 65536) * pv < 2 ^ 32 := by
    calc ((x2 - x1) % 65536) * pv ≤ 65535 * 65535 := Nat.mul_le_mul hr hp
    _ < 2 ^ 32 := by norm_num
  have hdle : (x2 - x1) * pv / 65536 ≤ x2 - x1 := by
    have h := Nat.div_le_div_right (c := 65536)
      (Nat.mul_le_mul_left (x2 - x1) (show pv ≤ 65536 by omega))
    calc (x2 - x1) * pv / 65536 ≤ (x2 - x1) * 65536 / 65536 := h
    _ = x2 - x1 := Nat.mul_div_cancel (x2 - x1) (by norm_num)
  have hsum : x1 + (x2 - x1) * pv / 65536 < 2 ^ 32 := by omega
  refine ⟨?_, by rw [hs, Nat.shiftRight_eq_div_pow]; norm_num; exact hb1,
    by rw [hs, and65535_eq_mod]; exact hb2, hsum⟩
  unfold Encoder.xmid
  rw [hs, and65535_eq_mod, Nat.shiftRight_eq_div_pow, Nat.shiftRight_eq_div_pow]
  norm_num
  rw [Nat.add_assoc, mul_split_div]
  exact Nat.mod_eq_of_lt hsum

/-- C6 witness: the split at `x1 = 1000`, `x2 = 4094967295`, `p = 30000`. -/
theorem c6_split_witness :
    Encoder.xmid 1000 4094967295 30000 = 1000 + (4094967295 - 1000) * 30000 / 65536 ∧
    (Encoder.sub32 4094967295 1000 >>> 16) * 30000 < 2 ^ 32 ∧
    (Encoder.sub32 4094967295 1000 &&& 0xffff) * 30000 < 2 ^ 32 ∧
    1000 + (4094967295 - 1000) * 30000 / 65536 < 2 ^ 32 :=
  c6_split 1000 4094967295 30000 (by decide) (by decide) (by decide)

end Fpaq0f2

namespace Fpaq0f2

/-! ## Output-buffer invariants (C2, C10) -/

/-- Output-buffer well-formedness for the COMPRESS path. -/
def OutOk (e : Encoder) : Prop := e.outBuf.length = e.bufIdx ∧ e.bufIdx ≤ e.bufSize

theorem emit_outOk (e : Encoder) (b : Nat) (h : OutOk e) (hlt : e.bufIdx < e.bufSize) :
    OutOk (e.emit b) := by
  obtain ⟨h1, h2⟩ := h
  refine ⟨?_, hlt⟩
  simp [Encoder.emit, h1]

theorem renormE_outOk (fuel : Nat) (e : Encoder) (h : OutOk e) :
    OutOk (Encoder.renormE fuel e).2 ∧ (Encoder.renormE fuel e).2.bufSize = e.bufSize := by
  induction fuel generalizing e with
  | zero => exact ⟨h, rfl⟩
  | succ n ih =>
    unfold Encoder.renormE
    split
    · split
      · rename_i hlt
        have h1 : OutOk (Encoder.shift (e.emit (e.x2 >>> 24))) := emit_outOk e _ h hlt
        exact (ih _ h1)
      · exact ⟨h, rfl⟩
    · exact ⟨h, rfl⟩

theorem encode_outOk (e : Encoder) (y : Nat) (h : OutOk e) :
    OutOk (e.encode y).2 ∧ (e.encode y).2.bufSize = e.bufSize := by
  unfold Encoder.encode
  dsimp only
  split <;> exact renormE_outOk 4 _ h

theorem flush_outOk (e : Encoder) (h : OutOk e) :
    OutOk (e.flush).2 ∧ (e.flush).2.bufSize = e.bufSize := by
  unfold Encoder.flush
  rcases hr : Encoder.renormE 4 e with ⟨b, e1⟩
  have h1 := renormE_outOk 4 e h
  rw [hr] at h1
  cases b
  · exact h1
  · dsimp only
    split
    · rename_i hlt
      exact ⟨emit_outOk e1 _ h1.1 hlt, h1.2⟩
    · exact h1

theorem encodeBits_outOk (i c : Nat) (e : Encoder) (h : OutOk e) :
    OutOk (encodeBits i c e).2 ∧ (encodeBits i c e).2.bufSize = e.bufSize := by
  induction i generalizing e with
  | zero => exact ⟨h, rfl⟩
  | succ n ih =>
    unfold encodeBits
    rcases he : e.encode ((c >>> n) &&& 1) with ⟨b, e1⟩
    have h1 := encode_outOk e ((c >>> n) &&& 1) h
    rw [he] at h1
    cases b
    · exact h1
    · dsimp only
      obtain ⟨ha, hb⟩ := ih e1 h1.1
      exact ⟨ha, hb.trans h1.2⟩

theorem compressLoop_outOk (l : List Nat) (e : Encoder) (h : OutOk e) :
    OutOk (compressLoop l e).2 ∧ (compressLoop l e).2.bufSize = e.bufSize := by
  induction l generalizing e with
  | nil => exact ⟨h, rfl⟩
  | cons c rest ih =>
    unfold compressLoop
    rcases he : e.encode 1 with ⟨b, e1⟩
    have h1 := encode_outOk e 1 h
    rw [he] at h1
    cases b
    · exact h1
    · dsimp only
      rcases hb : encodeBits 8 c e1 with ⟨b2, e2⟩
      have h2 := encodeBits_outOk 8 c e1 h1.1
      rw [hb] at h2
      cases b2
      · exact ⟨h2.1, h2.2.trans h1.2⟩
      · dsimp only
        obtain ⟨ha, hc⟩ := ih e2 h2.1
        exact ⟨ha, (hc.trans h2.2).trans h1.2⟩

end Fpaq0f2

namespace Fpaq0f2

theorem decompressLoop_spec (fuel : Nat) :
    ∀ (e : Encoder) (idx : Nat) (out : List Nat) (bufsize : Nat),
    out.length = idx → idx ≤ bufsize →
    (decompressLoop fuel e idx out bufsize).2.length ≤ bufsize ∧
    ((decompressLoop fuel e idx out bufsize).1 = bufsize + 1 ∨
      ((decompressLoop fuel e idx out bufsize).1 ≤ bufsize ∧
        (decompressLoop fuel e idx out bufsize).2.length =
          (decompressLoop fuel e idx out bufsize).1)) := by
  induction fuel with
  | zero =>
    intro e idx out bufsize h1 h2
    exact ⟨h1 ▸ h2, Or.inr ⟨h2, h1⟩⟩
  | succ n ih =>
    intro e idx out bufsize h1 h2
    unfold decompressLoop
    dsimp only
    split
    · exact ⟨h1 ▸ h2, Or.inr ⟨h2, h1⟩⟩
    · split
      · rename_i hlt
        apply ih
        · simp [h1]
        · omega
      · exact ⟨h1 ▸ h2, Or.inl rfl⟩

/-- C2: the two entry points return the invalid-argument sentinel (`none`,
modelling `SIZE_MAX`) exactly when a null buffer pointer is paired with a
positive length; in every other case the returned `size_t` value is either
`bufsize + 1` (output buffer too small) or the number of bytes written
(`out.length`), which lies in `0..bufsize`. -/
theorem c2_return_values (inNull : Bool) (inp : List Nat) (outNull : Bool) (bufsize : Nat) :
    (fpaq0f2_compress inNull inp outNull bufsize = none ↔
      (inNull = true ∧ 0 < inp.length) ∨ (outNull = true ∧ 0 < bufsize)) ∧
    (∀ r out, fpaq0f2_compress inNull inp outNull bufsize = some (r, out) →
      r = bufsize + 1 ∨ (r ≤ bufsize ∧ out.length = r)) ∧
    (fpaq0f2_decompress inNull inp outNull bufsize = none ↔
      (inNull = true ∧ 0 < inp.length) ∨ (outNull = true ∧ 0 < bufsize)) ∧
    (∀ r out, fpaq0f2_decompress inNull inp outNull bufsize = some (r, out) →
      r = bufsize + 1 ∨ (r ≤ bufsize ∧ out.length = r)) := by
  have hinit : OutOk (Encoder.initCompress bufsize) := ⟨rfl, Nat.zero_le _⟩
  have hsz : (Encoder.initCompress bufsize).bufSize = bufsize := rfl
  rcases hcl : compressLoop inp (Encoder.initCompress bufsize) with ⟨b, e⟩
  have h1 := compressLoop_outOk inp (Encoder.initCompress bufsize) hinit
  rw [hcl] at h1
  unfold fpaq0f2_compress fpaq0f2_decompress
  by_cases hin : inNull = true ∧ 0 < inp.length
  · simp [hin]
  · by_cases hout : outNull = true ∧ 0 < bufsize
    · simp [hin, hout]
    · simp only [if_neg hin, if_neg hout, hcl]
      refine ⟨?_, ?_, ?_, ?_⟩
      · simp only [iff_false, eq_comm]
        constructor
        · intro hnone
          exfalso
          revert hnone
          cases b
          · simp
          · dsimp only
            rcases he0 : e.encode 0 with ⟨b0, e1⟩
            cases b0
            · simp
            · dsimp only
              rcases hf : e1.flush with ⟨bf, e2⟩
              cases bf <;> simp
        · intro hc
          exact absurd hc (by tauto)
      · intro r out hr
        cases b
        · simp at hr
          left
          omega
        · dsimp only at hr
          rcases he0 : e.encode 0 with ⟨b0, e1⟩
          rw [he0] at hr
          have h2 := encode_outOk e 0 h1.1
          rw [he0] at h2
          cases b0
          · simp at hr
            left
            omega
          · dsimp only at hr
            rcases hf : e1.flush with ⟨bf, e2⟩
            rw [hf] at hr
            have h3 := flush_outOk e1 h2.1
            rw [hf] at h3
            cases bf
            · simp at hr
              left
              omega
            · simp at hr
              right
              have hle : e2.bufIdx ≤ e2.bufSize := h3.1.2
              have hb2 : e2.bufSize = bufsize := by
                rw [h3.2, h2.2, h1.2, hsz]
              have hlen : e2.outBuf.length = e2.bufIdx := h3.1.1
              refine ⟨by omega, ?_⟩
              rw [← hr.2, hlen, hr.1]
      · simp only [iff_false, eq_comm]
        constructor
        · intro hnone
          simp at hnone
        · intro hc
          exact absurd hc (by tauto)
      · intro r out hr
        simp only [Option.some_inj] at hr
        have hd := decompressLoop_spec (bufsize + 1) (Encoder.initDecompress inp).1 0 [] bufsize
          rfl (Nat.zero_le _)
        rw [hr] at hd
        dsimp only at hd
        exact hd.2

/-- C2 witness: concrete instances of the sentinel cases, and the byte-count
case at a concrete successful compress run (`compress [] = some (1, [255])`). -/
theorem c2_return_values_witness :
    fpaq0f2_compress true [7] false 5 = none ∧
    fpaq0f2_decompress false [] true 5 = none ∧
    (1 = 16 + 1 ∨ (1 ≤ 16 ∧ ([255] : List Nat).length = 1)) := by
  refine ⟨?_, ?_, ?_⟩
  · exact (c2_return_values true [7] false 5).1.mpr (Or.inl ⟨rfl, by decide⟩)
  · exact (c2_return_values false [] true 5).2.2.1.mpr (Or.inr ⟨rfl, by decide⟩)
  · exact (c2_return_values false [] false 16).2.1 1 [255] rfl

end Fpaq0f2

namespace Fpaq0f2

/-- C4 (code evaluated at the failing input): with `len = 0` the DECOMPRESS
constructor's first iteration evaluates `bufIdx <= bufSize` as `0 <= 0` and
reads `in[0]`, an out-of-bounds access, contradicting the claim that the four
initialization iterations never access the input buffer on empty input. -/
theorem c4_empty_input_oob_read : (Encoder.initDecompress []).2 = true := by decide

/-- C10: every store either entry point makes into the caller's output buffer
lands at an index strictly below the supplied capacity: in the model writes
append at index `out.length`, every write is guarded by an index-below-capacity
check, and the output list never exceeds `bufsize` entries, in success and
overflow cases alike. -/
theorem c10_writes_in_bounds (inNull : Bool) (inp : List Nat) (outNull : Bool) (bufsize : Nat)
    (r : Nat) (out : List Nat) :
    (fpaq0f2_compress inNull inp outNull bufsize = some (r, out) → out.length ≤ bufsize) ∧
    (fpaq0f2_decompress inNull inp outNull bufsize = some (r, out) → out.length ≤ bufsize) := by
  have hinit : OutOk (Encoder.initCompress bufsize) := ⟨rfl, Nat.zero_le _⟩
  constructor
  · intro hr
    unfold fpaq0f2_compress at hr
    by_cases hin : inNull = true ∧ 0 < inp.length
    · simp [hin] at hr
    · by_cases hout : outNull = true ∧ 0 < bufsize
      · simp [hin, hout] at hr
      · simp only [if_neg hin, if_neg hout] at hr
        rcases hcl : compressLoop inp (Encoder.initCompress bufsize) with ⟨b, e⟩
        have h1 := compressLoop_outOk inp (Encoder.initCompress bufsize) hinit
        rw [hcl] at h1
        dsimp only at h1
        rw [hcl] at hr
        have hbsz : e.bufSize = bufsize := h1.2
        cases b
        · simp only [Option.some_inj, Prod.mk.injEq] at hr
          obtain ⟨hr1, hr2⟩ := hr
          subst hr2
          have ha := h1.1.1
          have hb := h1.1.2
          omega
        · dsimp only at hr
          rcases he0 : e.encode 0 with ⟨b0, e1⟩
          rw [he0] at hr
          have h2 := encode_outOk e 0 h1.1
          rw [he0] at h2
          dsimp only at h2
          have hbsz1 : e1.bufSize = bufsize := h2.2.trans hbsz
          cases b0
          · simp only [Option.some_inj, Prod.mk.injEq] at hr
            obtain ⟨hr1, hr2⟩ := hr
            subst hr2
            have ha := h2.1.1
            have hb := h2.1.2
            omega
          · dsimp only at hr
            rcases hf : e1.flush with ⟨bf, e2⟩
            rw [hf] at hr
            have h3 := flush_outOk e1 h2.1
            rw [hf] at h3
            dsimp only at h3
            have hbsz2 : e2.bufSize = bufsize := h3.2.trans hbsz1
            have hlen := h3.1.1
            have hle := h3.1.2
            cases bf
            · simp only [Option.some_inj, Prod.mk.injEq] at hr
              obtain ⟨hr1, hr2⟩ := hr
              subst hr2
              omega
            · simp only [Option.some_inj, Prod.mk.injEq] at hr
              obtain ⟨hr1, hr2⟩ := hr
              subst hr2
              omega
  · intro hr
    unfold fpaq0f2_decompress at hr
    by_cases hin : inNull = true ∧ 0 < inp.length
    · simp [hin] at hr
    · by_cases hout : outNull = true ∧ 0 < bufsize
      · simp [hin, hout] at hr
      · simp only [if_neg hin, if_neg hout, Option.some_inj] at hr
        have hd := decompressLoop_spec (bufsize + 1) (Encoder.initDecompress inp).1 0 [] bufsize
          rfl (Nat.zero_le _)
        rw [hr] at hd
        exact hd.1

/-- C10 witness: a concrete compress and decompress run stay within capacity. -/
theorem c10_writes_in_bounds_witness :
    [95, 127].length ≤ 20 ∧ [65].length ≤ 16 :=
  ⟨(c10_writes_in_bounds false [65] false 20 2 [95, 127]).1 (by decide),
   (c10_writes_in_bounds false [95, 127] false 16 1 [65]).2 (by decide)⟩

end Fpaq0f2

namespace Fpaq0f2

/-! ## Bitwise characterization of the renormalization condition -/

theorem shiftRight_xor (a b k : Nat) : (a ^^^ b) >>> k = (a >>> k) ^^^ (b >>> k) := by
  apply Nat.eq_of_testBit_eq
  intro j
  simp [Nat.testBit_shiftRight, Nat.testBit_xor]

theorem and_hi_eq (z : Nat) : z &&& 0xff000000 = z / 2 ^ 24 % 2 ^ 8 * 2 ^ 24 := by
  apply Nat.eq_of_testBit_eq
  intro j
  rw [Nat.testBit_and]
  rw [show (0xff000000 : Nat) = 2 ^ 24 * 255 by norm_num]
  rw [show z / 2 ^ 24 % 2 ^ 8 * 2 ^ 24 = 2 ^ 24 * (z / 2 ^ 24 % 2 ^ 8) by ring]
  rw [Nat.testBit_mul_pow_two, Nat.testBit_mul_pow_two]
  by_cases h24 : 24 ≤ j
  · by_cases h8 : j - 24 < 8
    · have ht : z.testBit j = (z / 2 ^ 24 % 2 ^ 8).testBit (j - 24) := by
        rw [Nat.testBit_mod_two_pow]
        rw [← Nat.shiftRight_eq_div_pow, Nat.testBit_shiftRight]
        rw [show 24 + (j - 24) = j by omega]
        simp [h8]
      rw [show (255 : Nat) = 2 ^ 8 - 1 by norm_num, Nat.testBit_two_pow_sub_one]
      simp [h24, h8, ht]
    · rw [show (255 : Nat) = 2 ^ 8 - 1 by norm_num, Nat.testBit_two_pow_sub_one]
      have hz : (z / 16777216 % 256).testBit (j - 24) = false := by
        apply Nat.testBit_lt_two_pow
        calc z / 16777216 % 256 < 256 := Nat.mod_lt _ (by norm_num)
        _ = 2 ^ 8 := by norm_num
        _ ≤ 2 ^ (j - 24) := Nat.pow_le_pow_right (by norm_num) (by omega)
      simp [h8, hz]
  · simp [h24]

/-- The renormalization loop condition `(x1^x2) & 0xff000000 == 0` holds
exactly when the top bytes of the two interval ends agree. -/
theorem cond_iff (a b : Nat) (ha : a < 2 ^ 32) (hb : b < 2 ^ 32) :
    ((a ^^^ b) &&& 0xff000000 = 0) ↔ a / 2 ^ 24 = b / 2 ^ 24 := by
  rw [and_hi_eq]
  have hd : (a ^^^ b) / 2 ^ 24 = a / 2 ^ 24 ^^^ b / 2 ^ 24 := by
    rw [← Nat.shiftRight_eq_div_pow, ← Nat.shiftRight_eq_div_pow, ← Nat.shiftRight_eq_div_pow]
    exact shiftRight_xor a b 24
  have hlt : a / 2 ^ 24 ^^^ b / 2 ^ 24 < 2 ^ 8 := by
    apply Nat.xor_lt_two_pow <;> omega
  constructor
  · intro h
    have h0 : (a ^^^ b) / 2 ^ 24 % 2 ^ 8 = 0 := by
      rcases Nat.mul_eq_zero.mp h with h' | h'
      · exact h'
      · norm_num at h'
    rw [hd, Nat.mod_eq_of_lt hlt] at h0
    exact Nat.xor_eq_zero.mp h0
  · intro h
    rw [hd, h, Nat.xor_self]
    norm_num

/-! ## Coder invariant (C7) -/

/-- All StateMap cells are 32-bit values. -/
def TableOk (pr : Predictor) : Prop := ∀ cx, pr.sm.t cx < 2 ^ 32

/-- The coding interval is well formed and its two ends disagree in the top
byte (which is exactly the state in which the source leaves the interval
after every renormalization, and at construction). -/
def IntervalOk (e : Encoder) : Prop :=
  e.x1 ≤ e.x2 ∧ e.x2 < 2 ^ 32 ∧ e.x1 / 2 ^ 24 ≠ e.x2 / 2 ^ 24

def CoderOk (e : Encoder) : Prop := TableOk e.predictor ∧ IntervalOk e

theorem tableOk_init : TableOk Predictor.init := by
  intro cx
  show StateMap.initCell cx < 2 ^ 32
  unfold StateMap.initCell
  apply Nat.or_lt_two_pow _ (by norm_num)
  have h1 : cx &&& 1 ≤ 1 := Nat.and_le_right
  have h2 : cx &&& 2 ≤ 2 := Nat.and_le_right
  have h3 : ∀ k, (cx >>> k) &&& 1 ≤ 1 := fun k => Nat.and_le_right
  rw [Nat.shiftLeft_eq]
  have h4 := h3 2
  have h5 := h3 3
  have h6 := h3 4
  have h7 := h3 5
  have h8 := h3 6
  have h9 := h3 7
  have : (cx &&& 1) * 2 + (cx &&& 2) + ((cx >>> 2) &&& 1) + ((cx >>> 3) &&& 1) +
      ((cx >>> 4) &&& 1) + ((cx >>> 5) &&& 1) + ((cx >>> 6) &&& 1) + ((cx >>> 7) &&& 1) + 3
      ≤ 13 := by omega
  calc _ ≤ 13 * 2 ^ 28 := Nat.mul_le_mul_right _ this
  _ < 2 ^ 32 := by norm_num

theorem tableOk_p (pr : Predictor) (h : TableOk pr) : TableOk pr.p.2 := h

theorem tableOk_update (pr : Predictor) (y : Nat) (h : TableOk pr) :
    TableOk (pr.update y) := by
  intro cx
  show (pr.sm.update y 90).t cx < 2 ^ 32
  unfold StateMap.update
  dsimp only
  split
  · unfold StateMap.updateCell
    exact Nat.mod_lt _ (by norm_num)
  · exact h cx

theorem p_le (pr : Predictor) (h : TableOk pr) : pr.p.1 ≤ 65535 := by
  have := h (pr.cxt <<< 8 ||| pr.state pr.cxt)
  show pr.sm.t (pr.cxt <<< 8 ||| pr.state pr.cxt) >>> 16 ≤ 65535
  rw [Nat.shiftRight_eq_div_pow]
  omega

end Fpaq0f2

namespace Fpaq0f2

theorem xmid_spec (x1 x2 pv : Nat) (h12 : x1 ≤ x2) (h2 : x2 < 2 ^ 32) (hp : pv ≤ 65535) :
    Encoder.xmid x1 x2 pv = x1 + (x2 - x1) * pv / 65536 ∧
    x1 ≤ Encoder.xmid x1 x2 pv ∧ Encoder.xmid x1 x2 pv ≤ x2 := by
  have hs : Encoder.sub32 x2 x1 = x2 - x1 := by unfold Encoder.sub32; omega
  have hdle : (x2 - x1) * pv / 65536 ≤ x2 - x1 := by
    have h := Nat.div_le_div_right (c := 65536)
      (Nat.mul_le_mul_left (x2 - x1) (show pv ≤ 65536 by omega))
    calc (x2 - x1) * pv / 65536 ≤ (x2 - x1) * 65536 / 65536 := h
    _ = x2 - x1 := Nat.mul_div_cancel (x2 - x1) (by norm_num)
  have hsum : x1 + (x2 - x1) * pv / 65536 < 2 ^ 32 := by omega
  have he : Encoder.xmid x1 x2 pv = x1 + (x2 - x1) * pv / 65536 := by
    unfold Encoder.xmid
    rw [hs, and65535_eq_mod, Nat.shiftRight_eq_div_pow, Nat.shiftRight_eq_div_pow]
    norm_num
    rw [Nat.add_assoc, mul_split_div]
    exact Nat.mod_eq_of_lt hsum
  exact ⟨he, by omega, by omega⟩

theorem xmid_lt (x1 x2 pv : Nat) (h12 : x1 < x2) (h2 : x2 < 2 ^ 32) (hp : pv ≤ 65535) :
    Encoder.xmid x1 x2 pv < x2 := by
  obtain ⟨he, hge, _⟩ := xmid_spec x1 x2 pv (le_of_lt h12) h2 hp
  rw [he]
  have hw : 0 < x2 - x1 := by omega
  have hlt : (x2 - x1) * pv < 65536 * (x2 - x1) := by
    have hle : (x2 - x1) * pv ≤ (x2 - x1) * 65535 := Nat.mul_le_mul_left _ hp
    nlinarith
  have := Nat.div_lt_of_lt_mul hlt
  omega

/-- 32-bit left shift by one byte drops the top byte. -/
theorem mul256_mod (a : Nat) (ha : a < 2 ^ 32) : a * 256 % 2 ^ 32 = a % 2 ^ 24 * 256 := by
  omega

theorem shift_x1 (e : Encoder) (h : e.x1 < 2 ^ 32) :
    (Encoder.shift e).x1 = e.x1 % 2 ^ 24 * 256 := by
  show (e.x1 <<< 8) % 2 ^ 32 = _
  rw [Nat.shiftLeft_eq]
  norm_num
  omega

theorem shift_x2 (e : Encoder) (h : e.x2 < 2 ^ 32) :
    (Encoder.shift e).x2 = e.x2 % 2 ^ 24 * 256 + 255 := by
  show ((e.x2 <<< 8) + 255) % 2 ^ 32 = _
  rw [Nat.shiftLeft_eq]
  norm_num
  omega

theorem renormE_frozen (fuel : Nat) (e : Encoder) :
    (Encoder.renormE fuel e).2.predictor = e.predictor ∧
    (Encoder.renormE fuel e).2.x = e.x ∧
    (Encoder.renormE fuel e).2.inBuf = e.inBuf ∧
    (Encoder.renormE fuel e).2.bufSize = e.bufSize := by
  induction fuel generalizing e with
  | zero => exact ⟨rfl, rfl, rfl, rfl⟩
  | succ n ih =>
    unfold Encoder.renormE
    split
    · split
      · exact ih _
      · exact ⟨rfl, rfl, rfl, rfl⟩
    · exact ⟨rfl, rfl, rfl, rfl⟩

theorem renormE_run (fuel : Nat) (e : Encoder) (h1 : e.x1 ≤ e.x2) (h2 : e.x2 < 2 ^ 32)
    (ht : (Encoder.renormE fuel e).1 = true) :
    ∃ k, k ≤ fuel ∧
      (Encoder.renormE fuel e).2.x1 = e.x1 * 2 ^ (8 * k) % 2 ^ 32 ∧
      (Encoder.renormE fuel e).2.x2 = (e.x2 * 2 ^ (8 * k) + (2 ^ (8 * k) - 1)) % 2 ^ 32 ∧
      (Encoder.renormE fuel e).2.x1 ≤ (Encoder.renormE fuel e).2.x2 ∧
      (Encoder.renormE fuel e).2.x2 < 2 ^ 32 ∧
      ((Encoder.renormE fuel e).2.x1 / 2 ^ 24 ≠ (Encoder.renormE fuel e).2.x2 / 2 ^ 24 ∨
        k = fuel) := by
  induction fuel generalizing e with
  | zero =>
    refine ⟨0, le_refl _, ?_, ?_, h1, h2, Or.inr rfl⟩
    · show e.x1 = e.x1 * 2 ^ 0 % 2 ^ 32
      norm_num
      omega
    · show e.x2 = (e.x2 * 2 ^ 0 + (2 ^ 0 - 1)) % 2 ^ 32
      norm_num
      omega
  | succ n ih =>
    rw [Encoder.renormE] at ht ⊢
    by_cases hc : (e.x1 ^^^ e.x2) &&& 0xff000000 = 0
    · rw [if_pos hc] at ht ⊢
      by_cases hb : e.bufIdx < e.bufSize
      · rw [if_pos hb] at ht ⊢
        have htop : e.x1 / 2 ^ 24 = e.x2 / 2 ^ 24 :=
          (cond_iff e.x1 e.x2 (by omega) h2).mp hc
        set e1 := Encoder.shift (e.emit (e.x2 >>> 24)) with he1
        have he1x1 : e1.x1 = e.x1 % 2 ^ 24 * 256 := shift_x1 _ (by
          show (e.emit (e.x2 >>> 24)).x1 < 2 ^ 32
          unfold Encoder.emit
          dsimp only
          omega)
        have he1x2 : e1.x2 = e.x2 % 2 ^ 24 * 256 + 255 := shift_x2 _ (by
          show (e.emit (e.x2 >>> 24)).x2 < 2 ^ 32
          unfold Encoder.emit
          dsimp only
          omega)
        have h1n : e1.x1 ≤ e1.x2 := by
          rw [he1x1, he1x2]
          have : e.x1 % 2 ^ 24 ≤ e.x2 % 2 ^ 24 := by omega
          omega
        have h2n : e1.x2 < 2 ^ 32 := by
          rw [he1x2]
          omega
        obtain ⟨k, hk, hx1, hx2, hle, hlt, hd⟩ := ih e1 h1n h2n ht
        refine ⟨k + 1, by omega, ?_, ?_, hle, hlt, ?_⟩
        · rw [hx1, he1x1]
          have hstep : e.x1 % 2 ^ 24 * 256 = e.x1 * 256 % 2 ^ 32 := (mul256_mod _ (by omega)).symm
          rw [hstep, Nat.mod_mul_mod]
          congr 1
          rw [Nat.mul_assoc]
          congr 1
          rw [show 8 * (k + 1) = 8 * k + 8 by ring, pow_add]
          ring
        · rw [hx2, he1x2]
          have hstep : e.x2 % 2 ^ 24 * 256 + 255 = (e.x2 * 256 + 255) % 2 ^ 32 := by omega
          rw [hstep]
          rw [Nat.add_mod, Nat.mod_mul_mod, ← Nat.add_mod]
          congr 1
          have hm1 : 1 ≤ 2 ^ (8 * k) := Nat.one_le_two_pow
          have hpow : 2 ^ (8 * (k + 1)) = 2 ^ (8 * k) * 256 := by
            rw [show 8 * (k + 1) = 8 * k + 8 by ring, pow_add]
            norm_num
          rw [hpow]
          cases Nat.exists_eq_add_of_le hm1 with
          | intro m hm =>
            rw [show 2 ^ (8 * k) = 1 + m from hm]
            ring_nf
            omega
        · rcases hd with hd | rfl
          · exact Or.inl hd
          · exact Or.inr rfl
      · rw [if_neg hb] at ht
        simp at ht
    · rw [if_neg hc] at ht ⊢
      have htop : ¬ e.x1 / 2 ^ 24 = e.x2 / 2 ^ 24 := fun h => hc ((cond_iff e.x1 e.x2 (by omega) h2).mpr h)
      refine ⟨0, by omega, ?_, ?_, h1, h2, Or.inl htop⟩
      · show e.x1 = e.x1 * 2 ^ 0 % 2 ^ 32
        norm_num
        omega
      · show e.x2 = (e.x2 * 2 ^ 0 + (2 ^ 0 - 1)) % 2 ^ 32
        norm_num
        omega

end Fpaq0f2

namespace Fpaq0f2

theorem renormE_four_ok (e : Encoder) (h1 : e.x1 ≤ e.x2) (h2 : e.x2 < 2 ^ 32)
    (ht : (Encoder.renormE 4 e).1 = true) : IntervalOk (Encoder.renormE 4 e).2 := by
  obtain ⟨k, hk, hx1, hx2, hle, hlt, hd⟩ := renormE_run 4 e h1 h2 ht
  refine ⟨hle, hlt, ?_⟩
  rcases hd with hd | rfl
  · exact hd
  · rw [hx1, hx2]
    norm_num
    omega

theorem renormD_frozen (fuel : Nat) (e : Encoder) :
    (Encoder.renormD fuel e).predictor = e.predictor ∧
    (Encoder.renormD fuel e).outBuf = e.outBuf ∧
    (Encoder.renormD fuel e).inBuf = e.inBuf ∧
    (Encoder.renormD fuel e).bufSize = e.bufSize := by
  induction fuel generalizing e with
  | zero => exact ⟨rfl, rfl, rfl, rfl⟩
  | succ n ih =>
    unfold Encoder.renormD
    split
    · dsimp only
      unfold Encoder.readByteD
      split <;> exact ih _
    · exact ⟨rfl, rfl, rfl, rfl⟩

theorem renormD_run (fuel : Nat) (e : Encoder) (h1 : e.x1 ≤ e.x2) (h2 : e.x2 < 2 ^ 32) :
    ∃ k, k ≤ fuel ∧
      (Encoder.renormD fuel e).x1 = e.x1 * 2 ^ (8 * k) % 2 ^ 32 ∧
      (Encoder.renormD fuel e).x2 = (e.x2 * 2 ^ (8 * k) + (2 ^ (8 * k) - 1)) % 2 ^ 32 ∧
      (Encoder.renormD fuel e).x1 ≤ (Encoder.renormD fuel e).x2 ∧
      (Encoder.renormD fuel e).x2 < 2 ^ 32 ∧
      ((Encoder.renormD fuel e).x1 / 2 ^ 24 ≠ (Encoder.renormD fuel e).x2 / 2 ^ 24 ∨
        k = fuel) := by
  induction fuel generalizing e with
  | zero =>
    refine ⟨0, le_refl _, ?_, ?_, h1, h2, Or.inr rfl⟩
    · show e.x1 = e.x1 * 2 ^ 0 % 2 ^ 32
      norm_num
      omega
    · show e.x2 = (e.x2 * 2 ^ 0 + (2 ^ 0 - 1)) % 2 ^ 32
      norm_num
      omega
  | succ n ih =>
    rw [Encoder.renormD]
    by_cases hc : (e.x1 ^^^ e.x2) &&& 0xff000000 = 0
    · rw [if_pos hc]
      dsimp only
      have htop : e.x1 / 2 ^ 24 = e.x2 / 2 ^ 24 :=
        (cond_iff e.x1 e.x2 (by omega) h2).mp hc
      have hrb1 : (Encoder.readByteD (Encoder.shift e)).2.x1 = (Encoder.shift e).x1 := by
        unfold Encoder.readByteD
        split <;> rfl
      have hrb2 : (Encoder.readByteD (Encoder.shift e)).2.x2 = (Encoder.shift e).x2 := by
        unfold Encoder.readByteD
        split <;> rfl
      set rc := Encoder.readByteD (Encoder.shift e) with hrc
      set e2 : Encoder := { rc.2 with x := ((rc.2.x <<< 8) + rc.1) % 2 ^ 32 } with he2
      have he2x1 : e2.x1 = e.x1 % 2 ^ 24 * 256 := by
        show rc.2.x1 = _
        rw [hrc, hrb1, shift_x1 _ (by omega)]
      have he2x2 : e2.x2 = e.x2 % 2 ^ 24 * 256 + 255 := by
        show rc.2.x2 = _
        rw [hrc, hrb2, shift_x2 _ (by omega)]
      have h1n : e2.x1 ≤ e2.x2 := by
        rw [he2x1, he2x2]
        have : e.x1 % 2 ^ 24 ≤ e.x2 % 2 ^ 24 := by omega
        omega
      have h2n : e2.x2 < 2 ^ 32 := by
        rw [he2x2]
        omega
      obtain ⟨k, hk, hx1, hx2, hle, hlt, hd⟩ := ih e2 h1n h2n
      refine ⟨k + 1, by omega, ?_, ?_, hle, hlt, ?_⟩
      · rw [hx1, he2x1]
        have hstep : e.x1 % 2 ^ 24 * 256 = e.x1 * 256 % 2 ^ 32 := (mul256_mod _ (by omega)).symm
        rw [hstep, Nat.mod_mul_mod]
        congr 1
        rw [Nat.mul_assoc]
        congr 1
        rw [show 8 * (k + 1) = 8 * k + 8 by ring, pow_add]
        ring
      · rw [hx2, he2x2]
        have hstep : e.x2 % 2 ^ 24 * 256 + 255 = (e.x2 * 256 + 255) % 2 ^ 32 := by omega
        rw [hstep]
        rw [Nat.add_mod, Nat.mod_mul_mod, ← Nat.add_mod]
        congr 1
        have hm1 : 1 ≤ 2 ^ (8 * k) := Nat.one_le_two_pow
        have hpow : 2 ^ (8 * (k + 1)) = 2 ^ (8 * k) * 256 := by
          rw [show 8 * (k + 1) = 8 * k + 8 by ring, pow_add]
          norm_num
        rw [hpow]
        cases Nat.exists_eq_add_of_le hm1 with
        | intro m hm =>
          rw [show 2 ^ (8 * k) = 1 + m from hm]
          ring_nf
          omega
      · rcases hd with hd | rfl
        · exact Or.inl hd
        · exact Or.inr rfl
    · rw [if_neg hc]
      have htop : ¬ e.x1 / 2 ^ 24 = e.x2 / 2 ^ 24 := fun h =>
        hc ((cond_iff e.x1 e.x2 (by omega) h2).mpr h)
      refine ⟨0, by omega, ?_, ?_, h1, h2, Or.inl htop⟩
      · show e.x1 = e.x1 * 2 ^ 0 % 2 ^ 32
        norm_num
        omega
      · show e.x2 = (e.x2 * 2 ^ 0 + (2 ^ 0 - 1)) % 2 ^ 32
        norm_num
        omega

theorem renormD_four_ok (e : Encoder) (h1 : e.x1 ≤ e.x2) (h2 : e.x2 < 2 ^ 32) :
    (Encoder.renormD 4 e).x1 ≤ (Encoder.renormD 4 e).x2 ∧
    (Encoder.renormD 4 e).x2 < 2 ^ 32 ∧
    (Encoder.renormD 4 e).x1 / 2 ^ 24 ≠ (Encoder.renormD 4 e).x2 / 2 ^ 24 := by
  obtain ⟨k, hk, hx1, hx2, hle, hlt, hd⟩ := renormD_run 4 e h1 h2
  refine ⟨hle, hlt, ?_⟩
  rcases hd with hd | rfl
  · exact hd
  · rw [hx1, hx2]
    norm_num
    omega

end Fpaq0f2

namespace Fpaq0f2

theorem initStepD_frozen (e : Encoder) :
    (Encoder.initStepD e).1.predictor = e.predictor ∧
    (Encoder.initStepD e).1.x1 = e.x1 ∧
    (Encoder.initStepD e).1.x2 = e.x2 := by
  unfold Encoder.initStepD
  split <;> exact ⟨rfl, rfl, rfl⟩

theorem initDecompress_frozen (inp : List Nat) :
    (Encoder.initDecompress inp).1.predictor = Predictor.init ∧
    (Encoder.initDecompress inp).1.x1 = 0 ∧
    (Encoder.initDecompress inp).1.x2 = 0xffffffff := by
  unfold Encoder.initDecompress
  dsimp only
  obtain ⟨p4, a4, b4⟩ := initStepD_frozen (Encoder.initStepD (Encoder.initStepD
    (Encoder.initStepD ⟨Predictor.init, inp, [], 0, inp.length, 0, 0xffffffff, 0⟩).1).1).1
  obtain ⟨p3, a3, b3⟩ := initStepD_frozen (Encoder.initStepD (Encoder.initStepD
    ⟨Predictor.init, inp, [], 0, inp.length, 0, 0xffffffff, 0⟩).1).1
  obtain ⟨p2, a2, b2⟩ := initStepD_frozen (Encoder.initStepD
    ⟨Predictor.init, inp, [], 0, inp.length, 0, 0xffffffff, 0⟩).1
  obtain ⟨p1, a1, b1⟩ := initStepD_frozen
    (⟨Predictor.init, inp, [], 0, inp.length, 0, 0xffffffff, 0⟩ : Encoder)
  refine ⟨?_, ?_, ?_⟩
  · rw [p4, p3, p2, p1]
  · rw [a4, a3, a2, a1]
  · rw [b4, b3, b2, b1]

theorem encode_ok (e : Encoder) (y : Nat) (h : CoderOk e) (ht : (e.encode y).1 = true) :
    CoderOk (e.encode y).2 := by
  have htab := h.1
  have h1 := h.2.1
  have h2 := h.2.2.1
  have htop := h.2.2.2
  have hp : e.predictor.p.1 ≤ 65535 := p_le e.predictor htab
  have hne : e.x1 ≠ e.x2 := fun heq => htop (by rw [heq])
  have hlt : e.x1 < e.x2 := by omega
  have hxm1 : e.x1 ≤ Encoder.xmid e.x1 e.x2 e.predictor.p.1 :=
    (xmid_spec _ _ _ h1 h2 hp).2.1
  have hxm2 : Encoder.xmid e.x1 e.x2 e.predictor.p.1 < e.x2 := xmid_lt _ _ _ hlt h2 hp
  unfold Encoder.encode at ht ⊢
  dsimp only at ht ⊢
  by_cases hy : y ≠ 0
  · rw [if_pos hy] at ht ⊢
    have hfr := renormE_frozen 4
      { e with predictor := (e.predictor.p.2.update y), x2 := Encoder.xmid e.x1 e.x2 e.predictor.p.1 }
    constructor
    · intro cx
      rw [hfr.1]
      exact tableOk_update _ y (tableOk_p _ htab) cx
    · exact renormE_four_ok _ hxm1 (by dsimp only; omega) ht
  · rw [if_neg hy] at ht ⊢
    have hplus : Encoder.xmid e.x1 e.x2 e.predictor.p.1 + 1 ≤ e.x2 := by omega
    have hmod : (Encoder.xmid e.x1 e.x2 e.predictor.p.1 + 1) % 2 ^ 32 =
        Encoder.xmid e.x1 e.x2 e.predictor.p.1 + 1 := Nat.mod_eq_of_lt (by omega)
    have hfr := renormE_frozen 4
      { e with predictor := (e.predictor.p.2.update y),
               x1 := (Encoder.xmid e.x1 e.x2 e.predictor.p.1 + 1) % 2 ^ 32 }
    constructor
    · intro cx
      rw [hfr.1]
      exact tableOk_update _ y (tableOk_p _ htab) cx
    · refine renormE_four_ok _ ?_ (by dsimp only; omega) ht
      dsimp only
      omega

theorem decode_ok (e : Encoder) (h : CoderOk e) : CoderOk (e.decode).2 := by
  have htab := h.1
  have h1 := h.2.1
  have h2 := h.2.2.1
  have htop := h.2.2.2
  have hp : e.predictor.p.1 ≤ 65535 := p_le e.predictor htab
  have hne : e.x1 ≠ e.x2 := fun heq => htop (by rw [heq])
  have hlt : e.x1 < e.x2 := by omega
  have hxm1 : e.x1 ≤ Encoder.xmid e.x1 e.x2 e.predictor.p.1 :=
    (xmid_spec _ _ _ h1 h2 hp).2.1
  have hxm2 : Encoder.xmid e.x1 e.x2 e.predictor.p.1 < e.x2 := xmid_lt _ _ _ hlt h2 hp
  unfold Encoder.decode
  dsimp only
  by_cases hc : e.x ≤ Encoder.xmid e.x1 e.x2 e.predictor.p.1
  · rw [if_pos hc]
    dsimp only
    have hfr := renormD_frozen 4
      { e with predictor := (e.predictor.p.2.update 1), x2 := Encoder.xmid e.x1 e.x2 e.predictor.p.1 }
    constructor
    · intro cx
      rw [hfr.1]
      exact tableOk_update _ 1 (tableOk_p _ htab) cx
    · obtain ⟨q1, q2, q3⟩ := renormD_four_ok
        { e with predictor := (e.predictor.p.2.update 1),
                 x2 := Encoder.xmid e.x1 e.x2 e.predictor.p.1 }
        (by dsimp only; omega) (by dsimp only; omega)
      exact ⟨q1, q2, q3⟩
  · rw [if_neg hc]
    dsimp only
    have hmod : (Encoder.xmid e.x1 e.x2 e.predictor.p.1 + 1) % 2 ^ 32 =
        Encoder.xmid e.x1 e.x2 e.predictor.p.1 + 1 := Nat.mod_eq_of_lt (by omega)
    have hfr := renormD_frozen 4
      { e with predictor := (e.predictor.p.2.update 0),
               x1 := (Encoder.xmid e.x1 e.x2 e.predictor.p.1 + 1) % 2 ^ 32 }
    constructor
    · intro cx
      rw [hfr.1]
      exact tableOk_update _ 0 (tableOk_p _ htab) cx
    · obtain ⟨q1, q2, q3⟩ := renormD_four_ok
        { e with predictor := (e.predictor.p.2.update 0),
                 x1 := (Encoder.xmid e.x1 e.x2 e.predictor.p.1 + 1) % 2 ^ 32 }
        (by dsimp only; omega) (by dsimp only; omega)
      exact ⟨q1, q2, q3⟩

/-- Coder states reachable by a sequence of (successful) encode or decode
calls from a freshly constructed coder in either mode. -/
inductive Reached : Encoder → Prop where
  | initC (n : Nat) : Reached (Encoder.initCompress n)
  | initD (inp : List Nat) : Reached (Encoder.initDecompress inp).1
  | stepE (e : Encoder) (y : Nat) : Reached e → y ≤ 1 → (e.encode y).1 = true →
      Reached (e.encode y).2
  | stepD (e : Encoder) : Reached e → Reached (e.decode).2

theorem reached_ok (e : Encoder) (h : Reached e) : CoderOk e := by
  induction h with
  | initC n =>
    refine ⟨tableOk_init, ?_, ?_, ?_⟩
    · show (0 : Nat) ≤ 0xffffffff
      decide
    · show (0xffffffff : Nat) < 2 ^ 32
      decide
    · show (0 : Nat) / 2 ^ 24 ≠ 0xffffffff / 2 ^ 24
      decide
  | initD inp =>
    obtain ⟨hp, h1, h2⟩ := initDecompress_frozen inp
    refine ⟨?_, ?_, ?_, ?_⟩
    · rw [hp]; exact tableOk_init
    · rw [h1, h2]; decide
    · rw [h2]; decide
    · rw [h1, h2]; decide
  | stepE e y hr hy ht ih => exact encode_ok e y ih ht
  | stepD e hr ih => exact decode_ok e ih

/-- C7: in every state reachable by a sequence of encode or decode calls from
a freshly constructed coder (`x1 = 0`, `x2 = 0xFFFFFFFF`), the interval
satisfies `x1 <= x2` and the split computed from the current prediction
satisfies `x1 <= xmid < x2`, so the debug assertion on `xmid` never fails. -/
theorem c7_interval_invariant (e : Encoder) (hr : Reached e) :
    e.x1 ≤ e.x2 ∧
    e.x1 ≤ Encoder.xmid e.x1 e.x2 e.predictor.p.1 ∧
    Encoder.xmid e.x1 e.x2 e.predictor.p.1 < e.x2 := by
  have htab := (reached_ok e hr).1
  have h1 := (reached_ok e hr).2.1
  have h2 := (reached_ok e hr).2.2.1
  have htop := (reached_ok e hr).2.2.2
  have hp : e.predictor.p.1 ≤ 65535 := p_le e.predictor htab
  have hne : e.x1 ≠ e.x2 := fun heq => htop (by rw [heq])
  exact ⟨h1, (xmid_spec _ _ _ h1 h2 hp).2.1, xmid_lt _ _ _ (by omega) h2 hp⟩

/-- C7 witness: the invariant instantiated at a freshly constructed coder. -/
theorem c7_interval_invariant_witness :
    (Encoder.initCompress 16).x1 ≤ (Encoder.initCompress 16).x2 ∧
    (Encoder.initCompress 16).x1 ≤ Encoder.xmid (Encoder.initCompress 16).x1
      (Encoder.initCompress 16).x2 (Encoder.initCompress 16).predictor.p.1 ∧
    Encoder.xmid (Encoder.initCompress 16).x1 (Encoder.initCompress 16).x2
      (Encoder.initCompress 16).predictor.p.1 < (Encoder.initCompress 16).x2 :=
  c7_interval_invariant _ (Reached.initC 16)

end Fpaq0f2

namespace Fpaq0f2

/-! ## Cell-level invariant machinery (C8) -/

theorem or_disjoint (a b k : Nat) (ha : a % 2 ^ k = 0) (hb : b < 2 ^ k) : a ||| b = a + b := by
  obtain ⟨c, hc⟩ := Nat.dvd_of_mod_eq_zero ha
  subst hc
  apply Nat.eq_of_testBit_eq
  intro j
  rw [Nat.testBit_or]
  rw [show 2 ^ k * c + b = 2 ^ k * c + b from rfl, Nat.testBit_mul_pow_two_add c hb j]
  rw [show 2 ^ k * c = 2 ^ k * c from rfl, Nat.testBit_mul_pow_two]
  by_cases hj : j < k
  · simp only [hj, if_pos]
    have : ¬ j ≥ k := by omega
    simp [this]
  · simp only [hj, if_neg, ite_false]
    have hk : j ≥ k := by omega
    simp only [ge_iff_le, hk, decide_eq_true_eq, Bool.true_and, if_neg hj]
    have : b.testBit j = false := Nat.testBit_lt_two_pow (lt_of_lt_of_le hb
      (Nat.pow_le_pow_right (by norm_num) hk))
    simp [this]

theorem and_mid_eq (z : Nat) : z &&& 0xffffff00 = z / 2 ^ 8 % 2 ^ 24 * 2 ^ 8 := by
  apply Nat.eq_of_testBit_eq
  intro j
  rw [Nat.testBit_and]
  rw [show (0xffffff00 : Nat) = 2 ^ 8 * 16777215 by norm_num]
  rw [show z / 2 ^ 8 % 2 ^ 24 * 2 ^ 8 = 2 ^ 8 * (z / 2 ^ 8 % 2 ^ 24) by ring]
  rw [Nat.testBit_mul_pow_two, Nat.testBit_mul_pow_two]
  by_cases h8 : 8 ≤ j
  · by_cases h24 : j - 8 < 24
    · have ht : z.testBit j = (z / 2 ^ 8 % 2 ^ 24).testBit (j - 8) := by
        rw [Nat.testBit_mod_two_pow]
        rw [← Nat.shiftRight_eq_div_pow, Nat.testBit_shiftRight]
        rw [show 8 + (j - 8) = j by omega]
        simp [h24]
      rw [show (16777215 : Nat) = 2 ^ 24 - 1 by norm_num, Nat.testBit_two_pow_sub_one]
      simp [h8, h24, ht]
    · rw [show (16777215 : Nat) = 2 ^ 24 - 1 by norm_num, Nat.testBit_two_pow_sub_one]
      have hz : (z / 256 % 16777216).testBit (j - 8) = false := by
        apply Nat.testBit_lt_two_pow
        calc z / 256 % 16777216 < 16777216 := Nat.mod_lt _ (by norm_num)
        _ = 2 ^ 24 := by norm_num
        _ ≤ 2 ^ (j - 8) := Nat.pow_le_pow_right (by norm_num) (by omega)
      simp [h24, hz]
  · simp [h8]

/-- For 32-bit `z`, masking with `0xffffff00` clears the low byte. -/
theorem and_mid_eq32 (z : Nat) (hz : z < 2 ^ 32) : z &&& 0xffffff00 = z - z % 256 := by
  rw [and_mid_eq]
  have : z / 2 ^ 8 % 2 ^ 24 = z / 2 ^ 8 := Nat.mod_eq_of_lt (by omega)
  rw [this]
  omega

/-- Per-count lower bounds on the distance of a cell's prediction from the top:
`Qt k` bounds `2^18 - t/2^14` from below for a reachable cell with count `6 + k`. -/
def Qt : Nat → Nat
  | 0 => 49152
  | k + 1 => Qt k - Qt k * dt (6 + k) / 16384 - 2

theorem qt_strict : ∀ k, k < 84 → 65791 ≤ Qt k * dt (6 + k) := by decide

theorem qt_le : ∀ k, k ≤ 84 → Qt k ≤ 49152 := by decide

theorem qt_antitone : ∀ k, k < 84 → Qt (k + 1) ≤ Qt k := by decide

theorem dt_le_2184 (n : Nat) (h : 6 ≤ n) : dt n ≤ 2184 := by
  unfold dt
  calc 32768 / (n + n + 3) ≤ 32768 / 15 := Nat.div_le_div_left (by omega) (by norm_num)
  _ = 2184 := by norm_num

theorem dt_le_10922 (n : Nat) : dt n ≤ 10922 := by
  unfold dt
  calc 32768 / (n + n + 3) ≤ 32768 / 3 := Nat.div_le_div_left (by omega) (by norm_num)
  _ = 10922 := by norm_num

theorem dt_ge_179 (n : Nat) (h : n ≤ 90) : 179 ≤ dt n := by
  unfold dt
  calc (179 : Nat) = 32768 / 183 := by norm_num
  _ ≤ 32768 / (n + n + 3) := Nat.div_le_div_left (by omega) (by omega)

/-- Invariant of a single reachable StateMap cell: a 32-bit value whose count
(low byte) is between 6 and 90 and whose prediction keeps a count-dependent
safety distance from the top of the 32-bit range while the count has not yet
saturated. -/
def CellOk (tv : Nat) : Prop :=
  tv < 2 ^ 32 ∧ 6 ≤ tv % 256 ∧ tv % 256 ≤ 90 ∧
    (tv % 256 < 90 → Qt (tv % 256 - 6) + tv / 2 ^ 14 ≤ 2 ^ 18)

end Fpaq0f2

namespace Fpaq0f2

theorem updateCell_one (tv : Nat) (h32 : tv < 2 ^ 32) :
    StateMap.updateCell tv 1 90 =
      (tv + (if tv % 256 < 90 then 1 else 0) +
        ((2 ^ 18 - tv / 2 ^ 14) * dt (tv % 256) -
          (2 ^ 18 - tv / 2 ^ 14) * dt (tv % 256) % 256)) % 2 ^ 32 := by
  unfold StateMap.updateCell
  dsimp only
  rw [and255_eq_mod, Nat.shiftRight_eq_div_pow]
  have hp14 : tv / 2 ^ 14 ≤ 2 ^ 18 - 1 := by omega
  have hq : ((1 <<< 18 : Nat) : Int) - (tv / 2 ^ 14 : Nat) =
      ((2 ^ 18 - tv / 2 ^ 14 : Nat) : Int) := by
    have : (1 <<< 18 : Nat) = 2 ^ 18 := by decide
    rw [this]
    omega
  rw [hq]
  have hprod : ((2 ^ 18 - tv / 2 ^ 14 : Nat) : Int) * (dt (tv % 256) : Int) =
      (((2 ^ 18 - tv / 2 ^ 14) * dt (tv % 256) : Nat) : Int) := by
    push_cast
    ring
  rw [hprod]
  have hlt : ((2 ^ 18 - tv / 2 ^ 14) * dt (tv % 256) : Nat) < 2 ^ 32 := by
    have h1 : 2 ^ 18 - tv / 2 ^ 14 ≤ 2 ^ 18 := by omega
    have h2 : dt (tv % 256) ≤ 10922 := dt_le_10922 _
    calc (2 ^ 18 - tv / 2 ^ 14) * dt (tv % 256) ≤ 2 ^ 18 * 10922 := Nat.mul_le_mul h1 h2
    _ < 2 ^ 32 := by norm_num
  have hemod : (((2 ^ 18 - tv / 2 ^ 14) * dt (tv % 256) : Nat) : Int) % (2 ^ 32 : Int) =
      (((2 ^ 18 - tv / 2 ^ 14) * dt (tv % 256) : Nat) : Int) := by
    apply Int.emod_eq_of_lt (by positivity)
    exact_mod_cast hlt
  rw [hemod, Int.toNat_natCast]
  rw [and_mid_eq32 _ hlt]
  congr 1
  split <;> omega

theorem updateCell_zero_lo (tv : Nat) (h32 : tv < 2 ^ 32) (hp : tv / 2 ^ 14 = 0) :
    StateMap.updateCell tv 0 90 = (tv + (if tv % 256 < 90 then 1 else 0)) % 2 ^ 32 := by
  unfold StateMap.updateCell
  dsimp only
  rw [and255_eq_mod, Nat.shiftRight_eq_div_pow, hp]
  norm_num
  split <;> omega

theorem dt_ge_63 (n : Nat) (h : n ≤ 255) : 63 ≤ dt n := by
  unfold dt
  calc (63 : Nat) = 32768 / 513 := by norm_num
  _ ≤ 32768 / (n + n + 3) := Nat.div_le_div_left (by omega) (by omega)

theorem updateCell_zero_hi (tv : Nat) (h32 : tv < 2 ^ 32) (hp : 1 ≤ tv / 2 ^ 14) :
    StateMap.updateCell tv 0 90 =
      (tv + (if tv % 256 < 90 then 1 else 0) +
        ((2 ^ 32 - tv / 2 ^ 14 * dt (tv % 256)) -
          (2 ^ 32 - tv / 2 ^ 14 * dt (tv % 256)) % 256)) % 2 ^ 32 := by
  unfold StateMap.updateCell
  dsimp only
  rw [and255_eq_mod, Nat.shiftRight_eq_div_pow]
  have hdt : 63 ≤ dt (tv % 256) := dt_ge_63 _ (by omega)
  have hr1 : 1 ≤ tv / 2 ^ 14 * dt (tv % 256) := by
    calc 1 = 1 * 1 := rfl
    _ ≤ tv / 2 ^ 14 * dt (tv % 256) := Nat.mul_le_mul hp (by omega)
  have hrlt : tv / 2 ^ 14 * dt (tv % 256) < 2 ^ 32 := by
    have h1 : tv / 2 ^ 14 ≤ 2 ^ 18 := by omega
    have h2 : dt (tv % 256) ≤ 10922 := dt_le_10922 _
    calc tv / 2 ^ 14 * dt (tv % 256) ≤ 2 ^ 18 * 10922 := Nat.mul_le_mul h1 h2
    _ < 2 ^ 32 := by norm_num
  have hneg : (((0 <<< 18 : Nat) : Int) - ((tv / 2 ^ 14 : Nat) : Int)) * (dt (tv % 256) : Int) =
      -(((tv / 2 ^ 14 * dt (tv % 256) : Nat) : Int)) := by
    have h0 : (0 <<< 18 : Nat) = 0 := by decide
    rw [h0]
    push_cast
    ring
  rw [hneg]
  have hsplit : -(((tv / 2 ^ 14 * dt (tv % 256) : Nat) : Int)) =
      ((2 ^ 32 - tv / 2 ^ 14 * dt (tv % 256) : Nat) : Int) + (2 ^ 32 : Int) * (-1) := by
    have hc : ((2 ^ 32 - tv / 2 ^ 14 * dt (tv % 256) : Nat) : Int) =
        (2 ^ 32 : Int) - ((tv / 2 ^ 14 * dt (tv % 256) : Nat) : Int) := by
      have hle : tv / 2 ^ 14 * dt (tv % 256) ≤ 2 ^ 32 := by omega
      rw [Nat.cast_sub hle]
      norm_num
    rw [hc]
    ring
  rw [hsplit, Int.add_mul_emod_self_left]
  have hemod : ((2 ^ 32 - tv / 2 ^ 14 * dt (tv % 256) : Nat) : Int) % (2 ^ 32 : Int) =
      ((2 ^ 32 - tv / 2 ^ 14 * dt (tv % 256) : Nat) : Int) := by
    apply Int.emod_eq_of_lt (by positivity)
    have : (2 ^ 32 - tv / 2 ^ 14 * dt (tv % 256) : Nat) < 2 ^ 32 := by omega
    exact_mod_cast this
  rw [hemod, Int.toNat_natCast]
  rw [and_mid_eq32 _ (by omega)]
  congr 1
  split <;> omega

end Fpaq0f2

namespace Fpaq0f2

theorem cellOk_one (tv : Nat) (h : CellOk tv) :
    CellOk (StateMap.updateCell tv 1 90) ∧
    tv / 2 ^ 16 ≤ StateMap.updateCell tv 1 90 / 2 ^ 16 ∧
    (tv % 256 < 90 → tv / 2 ^ 16 < StateMap.updateCell tv 1 90 / 2 ^ 16) := by
  obtain ⟨h32, hn6, hn90, hqinv⟩ := h
  rw [updateCell_one tv h32]
  have hd2184 : dt (tv % 256) ≤ 2184 := dt_le_2184 _ hn6
  have hd179 : 179 ≤ dt (tv % 256) := dt_ge_179 _ hn90
  by_cases hn : tv % 256 < 90
  · rw [if_pos hn]
    have hQ := hqinv hn
    have hqQn : Qt (tv % 256 - 6) ≤ 2 ^ 18 - tv / 2 ^ 14 := by omega
    have hB : 65791 ≤ Qt (tv % 256 - 6) * dt (tv % 256) := by
      have := qt_strict (tv % 256 - 6) (by omega)
      rw [show 6 + (tv % 256 - 6) = tv % 256 from by omega] at this
      exact this
    have hA_ub : (2 ^ 18 - tv / 2 ^ 14) * dt (tv % 256) ≤ 2184 * (2 ^ 18 - tv / 2 ^ 14) := by
      calc (2 ^ 18 - tv / 2 ^ 14) * dt (tv % 256) ≤ (2 ^ 18 - tv / 2 ^ 14) * 2184 :=
        Nat.mul_le_mul_left _ hd2184
      _ = 2184 * (2 ^ 18 - tv / 2 ^ 14) := Nat.mul_comm _ _
    have hAB : Qt (tv % 256 - 6) * dt (tv % 256) ≤ (2 ^ 18 - tv / 2 ^ 14) * dt (tv % 256) :=
      Nat.mul_le_mul_right _ hqQn
    have hACB : (2 ^ 18 - tv / 2 ^ 14) * dt (tv % 256) =
        Qt (tv % 256 - 6) * dt (tv % 256) +
        (2 ^ 18 - tv / 2 ^ 14 - Qt (tv % 256 - 6)) * dt (tv % 256) := by
      rw [← Nat.add_mul, Nat.add_sub_cancel' hqQn]
    have hC_ub : (2 ^ 18 - tv / 2 ^ 14 - Qt (tv % 256 - 6)) * dt (tv % 256) ≤
        16384 * (2 ^ 18 - tv / 2 ^ 14 - Qt (tv % 256 - 6)) := by
      calc (2 ^ 18 - tv / 2 ^ 14 - Qt (tv % 256 - 6)) * dt (tv % 256) ≤
          (2 ^ 18 - tv / 2 ^ 14 - Qt (tv % 256 - 6)) * 16384 :=
        Nat.mul_le_mul_left _ (by omega)
      _ = 16384 * (2 ^ 18 - tv / 2 ^ 14 - Qt (tv % 256 - 6)) := Nat.mul_comm _ _
    have hnov : tv + 1 + ((2 ^ 18 - tv / 2 ^ 14) * dt (tv % 256) -
        (2 ^ 18 - tv / 2 ^ 14) * dt (tv % 256) % 256) < 2 ^ 32 := by omega
    rw [Nat.mod_eq_of_lt hnov]
    have hcount : (tv + 1 + ((2 ^ 18 - tv / 2 ^ 14) * dt (tv % 256) -
        (2 ^ 18 - tv / 2 ^ 14) * dt (tv % 256) % 256)) % 256 = tv % 256 + 1 := by omega
    refine ⟨⟨hnov, ?_, ?_, ?_⟩, by omega, fun _ => by omega⟩
    · rw [hcount]; omega
    · rw [hcount]; omega
    · rw [hcount]
      intro hlt90
      rw [show tv % 256 + 1 - 6 = tv % 256 - 6 + 1 from by omega]
      have hQt1 : Qt (tv % 256 - 6 + 1) =
          Qt (tv % 256 - 6) - Qt (tv % 256 - 6) * dt (6 + (tv % 256 - 6)) / 16384 - 2 := rfl
      rw [hQt1, show 6 + (tv % 256 - 6) = tv % 256 from by omega]
      omega
  · rw [if_neg hn]
    have hn90e : tv % 256 = 90 := by omega
    rw [hn90e, show dt 90 = 179 from by norm_num [dt]]
    have hnov : tv + 0 + ((2 ^ 18 - tv / 2 ^ 14) * 179 -
        (2 ^ 18 - tv / 2 ^ 14) * 179 % 256) < 2 ^ 32 := by omega
    rw [Nat.mod_eq_of_lt hnov]
    refine ⟨⟨hnov, by omega, by omega, fun hc => by omega⟩, by omega, fun hl => by omega⟩

theorem cellOk_zero (tv : Nat) (h : CellOk tv) :
    CellOk (StateMap.updateCell tv 0 90) ∧
    StateMap.updateCell tv 0 90 / 2 ^ 16 ≤ tv / 2 ^ 16 := by
  obtain ⟨h32, hn6, hn90, hqinv⟩ := h
  have hd2184 : dt (tv % 256) ≤ 2184 := dt_le_2184 _ hn6
  have hd179 : 179 ≤ dt (tv % 256) := dt_ge_179 _ hn90
  by_cases hp : tv / 2 ^ 14 = 0
  · rw [updateCell_zero_lo tv h32 hp]
    have htv : tv < 2 ^ 14 := by omega
    have hmod : (tv + (if tv % 256 < 90 then 1 else 0)) % 2 ^ 32 =
        tv + (if tv % 256 < 90 then 1 else 0) := Nat.mod_eq_of_lt (by split <;> omega)
    rw [hmod]
    have hqle : ∀ k, k ≤ 84 → Qt k ≤ 49152 := qt_le
    refine ⟨⟨by split <;> omega, by split <;> omega, by split <;> omega, ?_⟩, by split <;> omega⟩
    split
    · rename_i h90
      intro hlt
      have := hqle ((tv + 1) % 256 - 6) (by omega)
      omega
    · intro hlt
      omega
  · rw [updateCell_zero_hi tv h32 (by omega)]
    have hr_lb : 179 ≤ tv / 2 ^ 14 * dt (tv % 256) := by
      calc (179 : Nat) = 1 * 179 := by norm_num
      _ ≤ tv / 2 ^ 14 * dt (tv % 256) := Nat.mul_le_mul (by omega) hd179
    have hr_ub : tv / 2 ^ 14 * dt (tv % 256) ≤ tv / 2 ^ 14 * 2184 :=
      Nat.mul_le_mul_left _ hd2184
    have hr_ub2 : tv / 2 ^ 14 * 2184 + 16384 ≤ 16384 * (tv / 2 ^ 14) + 16384 := by
      have : tv / 2 ^ 14 * 2184 ≤ tv / 2 ^ 14 * 16384 := Nat.mul_le_mul_left _ (by norm_num)
      have h2 : tv / 2 ^ 14 * 16384 = 16384 * (tv / 2 ^ 14) := Nat.mul_comm _ _
      omega
    have h16 : 16384 * (tv / 2 ^ 14) ≤ tv := by
      have := Nat.div_add_mod tv 16384
      omega
    -- the wrap subtracts exactly one 2^32
    have hkey : ∀ inc : Nat, inc ≤ 1 →
        (tv + inc + ((2 ^ 32 - tv / 2 ^ 14 * dt (tv % 256)) -
          (2 ^ 32 - tv / 2 ^ 14 * dt (tv % 256)) % 256)) % 2 ^ 32 =
        tv + inc + ((2 ^ 32 - tv / 2 ^ 14 * dt (tv % 256)) -
          (2 ^ 32 - tv / 2 ^ 14 * dt (tv % 256)) % 256) - 2 ^ 32 := by
      intro inc hinc
      have hbig : 2 ^ 32 ≤ tv + inc + ((2 ^ 32 - tv / 2 ^ 14 * dt (tv % 256)) -
          (2 ^ 32 - tv / 2 ^ 14 * dt (tv % 256)) % 256) := by omega
      have hsmall : tv + inc + ((2 ^ 32 - tv / 2 ^ 14 * dt (tv % 256)) -
          (2 ^ 32 - tv / 2 ^ 14 * dt (tv % 256)) % 256) < 2 ^ 32 + 2 ^ 32 := by omega
      omega
    split
    · rename_i hlt90
      rw [hkey 1 (by omega)]
      have hqpre := hqinv hlt90
      have hmono : ∀ k, k < 84 → Qt (k + 1) ≤ Qt k := qt_antitone
      refine ⟨⟨by omega, by omega, by omega, ?_⟩, by omega⟩
      intro hlt
      have hcnt : (tv + 1 + ((2 ^ 32 - tv / 2 ^ 14 * dt (tv % 256)) -
          (2 ^ 32 - tv / 2 ^ 14 * dt (tv % 256)) % 256) - 2 ^ 32) % 256 = tv % 256 + 1 := by
        omega
      rw [hcnt] at hlt ⊢
      rw [show tv % 256 + 1 - 6 = tv % 256 - 6 + 1 from by omega]
      have := hmono (tv % 256 - 6) (by omega)
      omega
    · rename_i hge90
      rw [hkey 0 (by omega)]
      refine ⟨⟨by omega, by omega, by omega, ?_⟩, by omega⟩
      intro hlt
      omega

end Fpaq0f2

namespace Fpaq0f2

theorem cellOk_init (i : Nat) : CellOk (StateMap.init.t i) := by
  show CellOk (StateMap.initCell i)
  have h1 : i &&& 1 ≤ 1 := Nat.and_le_right
  have h2 : i &&& 2 ≤ 2 := Nat.and_le_right
  have h3 : ∀ k, (i >>> k) &&& 1 ≤ 1 := fun k => Nat.and_le_right
  have h4 := h3 2
  have h5 := h3 3
  have h6 := h3 4
  have h7 := h3 5
  have h8 := h3 6
  have h9 := h3 7
  unfold StateMap.initCell
  rw [Nat.shiftLeft_eq, or_disjoint _ 6 28 (by rw [Nat.mul_mod]; norm_num) (by norm_num)]
  have hQt0 : Qt 0 = 49152 := rfl
  constructor
  · omega
  refine ⟨by omega, by omega, ?_⟩
  intro hc
  have hn : ((i &&& 1) * 2 + (i &&& 2) + (i >>> 2 &&& 1) + (i >>> 3 &&& 1) + (i >>> 4 &&& 1) +
      (i >>> 5 &&& 1) + (i >>> 6 &&& 1) + (i >>> 7 &&& 1) + 3) * 2 ^ 28 % 256 = 0 := by
    rw [Nat.mul_mod]
    norm_num
  rw [show (((i &&& 1) * 2 + (i &&& 2) + (i >>> 2 &&& 1) + (i >>> 3 &&& 1) + (i >>> 4 &&& 1) +
      (i >>> 5 &&& 1) + (i >>> 6 &&& 1) + (i >>> 7 &&& 1) + 3) * 2 ^ 28 + 6) % 256 - 6 = 0
    from by omega]
  rw [hQt0]
  omega

theorem update_cellsOk (pr : Predictor) (y : Nat) (hy : y ≤ 1)
    (h : ∀ cx, CellOk (pr.sm.t cx)) : ∀ cx, CellOk ((pr.update y).sm.t cx) := by
  intro cx
  show CellOk ((pr.sm.update y 90).t cx)
  unfold StateMap.update
  dsimp only
  split
  · rcases (by omega : y = 0 ∨ y = 1) with rfl | rfl
    · exact (cellOk_zero _ (h _)).1
    · exact (cellOk_one _ (h _)).1
  · exact h cx

theorem encode_cellsOk (e : Encoder) (y : Nat) (hy : y ≤ 1)
    (h : ∀ cx, CellOk (e.predictor.sm.t cx)) :
    ∀ cx, CellOk ((e.encode y).2.predictor.sm.t cx) := by
  unfold Encoder.encode
  dsimp only
  split <;> intro cx <;> rw [(renormE_frozen 4 _).1] <;> dsimp only <;>
    exact update_cellsOk (e.predictor.p.2) y hy (fun c => h c) cx

theorem decode_cellsOk (e : Encoder) (h : ∀ cx, CellOk (e.predictor.sm.t cx)) :
    ∀ cx, CellOk ((e.decode).2.predictor.sm.t cx) := by
  unfold Encoder.decode
  dsimp only
  split <;> intro cx <;> rw [(renormD_frozen 4 _).1] <;> dsimp only <;>
    first
      | exact update_cellsOk (e.predictor.p.2) 1 (by omega) (fun c => h c) cx
      | exact update_cellsOk (e.predictor.p.2) 0 (by omega) (fun c => h c) cx

theorem reached_cellsOk (e : Encoder) (h : Reached e) :
    ∀ cx, CellOk (e.predictor.sm.t cx) := by
  induction h with
  | initC n => exact fun cx => cellOk_init cx
  | initD inp =>
    intro cx
    rw [(initDecompress_frozen inp).1]
    exact cellOk_init cx
  | stepE e y hr hy ht ih => exact encode_cellsOk e y hy ih
  | stepD e hr ih => exact decode_cellsOk e ih

/-- C8: in every StateMap state reachable in the codec and for every context
`cx`: if `p(cx)` returns `v` and `update(1, 90)` is applied (90 is the limit
the codec always passes), a subsequent `p(cx)` returns a value `>= v`, with
equality possible only at saturation, i.e. when the cell count has already
reached the limit (when the count is below the limit the new value is
strictly greater); if instead `update(0, 90)` is applied, the subsequent
`p(cx)` returns a value `<= v`. -/
theorem c8_statemap_monotonicity (e : Encoder) (hr : Reached e) (cx : Nat) :
    (e.predictor.sm.p cx).1 ≤ (((e.predictor.sm.p cx).2.update 1 90).p cx).1 ∧
    (e.predictor.sm.t cx &&& 255 < 90 →
      (e.predictor.sm.p cx).1 < (((e.predictor.sm.p cx).2.update 1 90).p cx).1) ∧
    (((e.predictor.sm.p cx).2.update 0 90).p cx).1 ≤ (e.predictor.sm.p cx).1 := by
  have hcell := reached_cellsOk e hr cx
  have hone := cellOk_one _ hcell
  have hzero := cellOk_zero _ hcell
  simp only [StateMap.p, StateMap.update, and255_eq_mod, eq_self_iff_true, if_true]
  rw [Nat.shiftRight_eq_div_pow, Nat.shiftRight_eq_div_pow, Nat.shiftRight_eq_div_pow]
  norm_num
  exact ⟨hone.2.1, fun hlt => hone.2.2 hlt, hzero.2⟩

/-- C8 witness: the monotonicity conclusions at the freshly constructed coder
and context 0. -/
theorem c8_statemap_monotonicity_witness :
    ((Encoder.initCompress 4).predictor.sm.p 0).1 ≤
      ((((Encoder.initCompress 4).predictor.sm.p 0).2.update 1 90).p 0).1 ∧
    ((Encoder.initCompress 4).predictor.sm.t 0 &&& 255 < 90 →
      ((Encoder.initCompress 4).predictor.sm.p 0).1 <
        ((((Encoder.initCompress 4).predictor.sm.p 0).2.update 1 90).p 0).1) ∧
    ((((Encoder.initCompress 4).predictor.sm.p 0).2.update 0 90).p 0).1 ≤
      ((Encoder.initCompress 4).predictor.sm.p 0).1 :=
  c8_statemap_monotonicity (Encoder.initCompress 4) (Reached.initC 4) 0

end Fpaq0f2
namespace Fpaq0f2

/-! ## Round-trip infrastructure (C1): bit-stream view of the codec -/

/-- The 32-bit big-endian window of the zero-extended stream `S` at offset `m`. -/
def win (S : List Nat) (m : Nat) : Nat :=
  S.getD m 0 * 2 ^ 24 + S.getD (m + 1) 0 * 2 ^ 16 + S.getD (m + 2) 0 * 2 ^ 8 + S.getD (m + 3) 0

/-- The decoder's read cursor after its window has consumed `m + 4` stream
positions of a stream of length `L` (the `+1` for `L ≤ 3` reflects the
constructor's `<=` bound). -/
def cursor (L m : Nat) : Nat := if m + 4 ≤ L then m + 4 else if L ≤ 3 then L + 1 else L

/-- The `k` low bits of `c`, most significant first. -/
def bitsDown : Nat → Nat → List Nat
  | 0, _ => []
  | k + 1, c => ((c >>> k) &&& 1) :: bitsDown k c

/-- The 9-bit framing of a byte stream: a leading 1 then the 8 bits of each
byte, MSB first (the closing 0 EOF bit is appended by the caller). -/
def frameBits : List Nat → List Nat
  | [] => []
  | c :: rest => 1 :: (bitsDown 8 c ++ frameBits rest)

/-- Encode a list of bits (the abstract view of the compress loops). -/
def encBits : List Nat → Encoder → Bool × Encoder
  | [], e => (true, e)
  | b :: bs, e =>
    match e.encode b with
    | (false, e1) => (false, e1)
    | (true, e1) => encBits bs e1

/-- Decode `n` bits, collecting them. -/
def decBits : Nat → Encoder → List Nat × Encoder
  | 0, e => ([], e)
  | n + 1, e =>
    let r := e.decode
    let rr := decBits n r.2
    (r.1 :: rr.1, rr.2)

/-- The state reached by `encode` just before its renormalization loop. -/
def narrowStep (e : Encoder) (y : Nat) : Encoder :=
  let pr := e.predictor.p
  let e1 := { e with predictor := pr.2 }
  let xm := Encoder.xmid e1.x1 e1.x2 pr.1
  let e2 := if y ≠ 0 then { e1 with x2 := xm } else { e1 with x1 := (xm + 1) % 2 ^ 32 }
  { e2 with predictor := e2.predictor.update y }

theorem encode_eq (e : Encoder) (y : Nat) :
    e.encode y = Encoder.renormE 4 (narrowStep e y) := rfl

theorem decode_eq (e : Encoder) :
    e.decode = (if e.x ≤ Encoder.xmid e.x1 e.x2 e.predictor.p.1 then 1 else 0,
      Encoder.renormD 4
        (narrowStep e (if e.x ≤ Encoder.xmid e.x1 e.x2 e.predictor.p.1 then 1 else 0))) := by
  by_cases hle : e.x ≤ Encoder.xmid e.x1 e.x2 e.predictor.p.1
  · simp only [Encoder.decode, narrowStep, if_pos hle]
    norm_num
  · simp only [Encoder.decode, narrowStep, if_neg hle]
    norm_num

theorem encBits_append (xs ys : List Nat) (e : Encoder) :
    encBits (xs ++ ys) e =
      match encBits xs e with
      | (false, e1) => (false, e1)
      | (true, e1) => encBits ys e1 := by
  induction xs generalizing e with
  | nil => rfl
  | cons b bs ih =>
    have h1 : encBits ((b :: bs) ++ ys) e =
        match e.encode b with
        | (false, e1) => (false, e1)
        | (true, e1) => encBits (bs ++ ys) e1 := rfl
    have h2 : encBits (b :: bs) e =
        match e.encode b with
        | (false, e1) => (false, e1)
        | (true, e1) => encBits bs e1 := rfl
    rw [h1, h2]
    rcases e.encode b with ⟨bb, e1⟩
    cases bb
    · rfl
    · dsimp only
      exact ih e1

theorem encodeBits_eq (i c : Nat) (e : Encoder) :
    encodeBits i c e = encBits (bitsDown i c) e := by
  induction i generalizing e with
  | zero => rfl
  | succ k ih =>
    unfold encodeBits bitsDown encBits
    rcases e.encode ((c >>> k) &&& 1) with ⟨bb, e1⟩
    cases bb
    · rfl
    · exact ih e1

theorem compressLoop_eq (l : List Nat) (e : Encoder) :
    compressLoop l e = encBits (frameBits l) e := by
  induction l generalizing e with
  | nil => rfl
  | cons c rest ih =>
    show compressLoop (c :: rest) e = encBits (1 :: (bitsDown 8 c ++ frameBits rest)) e
    unfold compressLoop encBits
    rcases e.encode 1 with ⟨b1, e1⟩
    cases b1
    · rfl
    · dsimp only
      rw [encodeBits_eq, encBits_append]
      rcases encBits (bitsDown 8 c) e1 with ⟨b2, e2⟩
      cases b2
      · rfl
      · exact ih e2

theorem decBits_add (n k : Nat) (e : Encoder) :
    decBits (n + k) e =
      ((decBits n e).1 ++ (decBits k (decBits n e).2).1, (decBits k (decBits n e).2).2) := by
  induction n generalizing e with
  | zero => simp [decBits]
  | succ j ih =>
    rw [show j + 1 + k = (j + k) + 1 from by omega]
    have h1 : ∀ (m : Nat) (e : Encoder), decBits (m + 1) e =
        (e.decode.1 :: (decBits m e.decode.2).1, (decBits m e.decode.2).2) := fun m e => rfl
    rw [h1 (j + k) e, ih e.decode.2, h1 j e]
    rfl

theorem bitsDown_le_one (k c : Nat) : ∀ b ∈ bitsDown k c, b ≤ 1 := by
  induction k with
  | zero => intro b hb; cases hb
  | succ j ih =>
    intro b hb
    unfold bitsDown at hb
    rcases List.mem_cons.mp hb with rfl | hb
    · have : (c >>> j) &&& 1 ≤ 1 := Nat.and_le_right
      omega
    · exact ih b hb

theorem frameBits_le_one (l : List Nat) : ∀ b ∈ frameBits l, b ≤ 1 := by
  induction l with
  | nil => intro b hb; cases hb
  | cons c rest ih =>
    intro b hb
    unfold frameBits at hb
    rcases List.mem_cons.mp hb with rfl | hb
    · omega
    · rcases List.mem_append.mp hb with hb | hb
      · exact bitsDown_le_one 8 c b hb
      · exact ih b hb

end Fpaq0f2
namespace Fpaq0f2

/-! ## Round-trip (C1): window arithmetic and output-byte bounds -/

theorem getD_lt (S : List Nat) (hS : ∀ b ∈ S, b < 256) (i : Nat) : S.getD i 0 < 256 := by
  by_cases h : i < S.length
  · rw [List.getD_eq_getElem S 0 h]
    exact hS _ (List.getElem_mem h)
  · rw [List.getD_eq_default S 0 (by omega)]
    norm_num

theorem win_lt (S : List Nat) (hS : ∀ b ∈ S, b < 256) (m : Nat) : win S m < 2 ^ 32 := by
  have h0 := getD_lt S hS m
  have h1 := getD_lt S hS (m + 1)
  have h2 := getD_lt S hS (m + 2)
  have h3 := getD_lt S hS (m + 3)
  unfold win
  omega

theorem win_shift (S : List Nat) (hS : ∀ b ∈ S, b < 256) (m : Nat) :
    ((win S m <<< 8) + S.getD (m + 4) 0) % 2 ^ 32 = win S (m + 1) := by
  have h0 := getD_lt S hS m
  have h1 := getD_lt S hS (m + 1)
  have h2 := getD_lt S hS (m + 2)
  have h3 := getD_lt S hS (m + 3)
  have h4 := getD_lt S hS (m + 4)
  unfold win
  rw [Nat.shiftLeft_eq]
  have e1 : m + 1 + 1 = m + 2 := rfl
  have e2 : m + 1 + 2 = m + 3 := rfl
  have e3 : m + 1 + 3 = m + 4 := rfl
  rw [e1, e2, e3]
  omega

theorem win_peel (S : List Nat) (hS : ∀ b ∈ S, b < 256) (m : Nat) :
    win S m = S.getD m 0 * 2 ^ 24 + win S (m + 1) / 2 ^ 8 := by
  have h1 := getD_lt S hS (m + 1)
  have h2 := getD_lt S hS (m + 2)
  have h3 := getD_lt S hS (m + 3)
  have h4 := getD_lt S hS (m + 4)
  unfold win
  have e1 : m + 1 + 1 = m + 2 := rfl
  have e2 : m + 1 + 2 = m + 3 := rfl
  have e3 : m + 1 + 3 = m + 4 := rfl
  rw [e1, e2, e3]
  omega

theorem win_past (S : List Nat) (m : Nat) (h : S.length ≤ m) : win S m = 0 := by
  unfold win
  rw [List.getD_eq_default S 0 (by omega), List.getD_eq_default S 0 (by omega),
    List.getD_eq_default S 0 (by omega), List.getD_eq_default S 0 (by omega)]
  norm_num

theorem cursor_low (L m : Nat) (h : L ≤ 3) : cursor L m = L + 1 := by
  unfold cursor
  rw [if_neg (by omega), if_pos h]

theorem cursor_high_in (L m : Nat) (h : m + 4 ≤ L) : cursor L m = m + 4 := by
  unfold cursor
  rw [if_pos h]

theorem cursor_high_out (L m : Nat) (h4 : 4 ≤ L) (h : L < m + 4) : cursor L m = L := by
  unfold cursor
  rw [if_neg (by omega), if_neg (by omega)]

theorem cursor_lt_iff (L m : Nat) : cursor L m < L ↔ m + 4 < L := by
  by_cases h3 : L ≤ 3
  · rw [cursor_low L m h3]
    omega
  · by_cases hin : m + 4 ≤ L
    · rw [cursor_high_in L m hin]
    · rw [cursor_high_out L m (by omega) (by omega)]
      omega

theorem cursor_succ (L m : Nat) :
    cursor L (m + 1) = if cursor L m < L then cursor L m + 1 else cursor L m := by
  by_cases h3 : L ≤ 3
  · rw [cursor_low L m h3, cursor_low L (m + 1) h3, if_neg (by omega)]
  · by_cases hin : m + 1 + 4 ≤ L
    · rw [cursor_high_in L (m + 1) hin, cursor_high_in L m (by omega),
        if_pos (by omega)]
    · rw [cursor_high_out L (m + 1) (by omega) (by omega)]
      by_cases hm : m + 4 ≤ L
      · have : m + 4 = L := by omega
        rw [cursor_high_in L m hm, if_neg (by omega), this]
      · rw [cursor_high_out L m (by omega) (by omega), if_neg (by omega)]

/-- The byte delivered by `readByteD` at abstract position `m` is the stream
byte at `m + 4` (zero past the end), and the cursor advances as `cursor`. -/
theorem readByteD_spec (d : Encoder) (S : List Nat) (m : Nat) (hin : d.inBuf = S)
    (hbs : d.bufSize = S.length) (hbi : d.bufIdx = cursor S.length m) :
    (Encoder.readByteD d).1 = S.getD (m + 4) 0 ∧
    (Encoder.readByteD d).2.bufIdx = cursor S.length (m + 1) ∧
    (Encoder.readByteD d).2.predictor = d.predictor ∧
    (Encoder.readByteD d).2.inBuf = d.inBuf ∧
    (Encoder.readByteD d).2.bufSize = d.bufSize ∧
    (Encoder.readByteD d).2.x1 = d.x1 ∧
    (Encoder.readByteD d).2.x2 = d.x2 ∧
    (Encoder.readByteD d).2.x = d.x := by
  unfold Encoder.readByteD
  by_cases h : cursor S.length m < S.length
  · rw [if_pos (by rw [hbi, hbs]; exact h)]
    dsimp only
    refine ⟨?_, ?_, rfl, rfl, rfl, rfl, rfl, rfl⟩
    · have hc : cursor S.length m = m + 4 :=
        cursor_high_in _ _ (by have := (cursor_lt_iff S.length m).mp h; omega)
      rw [hin, hbi, hc]
    · rw [hbi, cursor_succ, if_pos h]
  · rw [if_neg (by rw [hbi, hbs]; exact h)]
    dsimp only
    refine ⟨?_, ?_, rfl, rfl, rfl, rfl, rfl, rfl⟩
    · have hge : S.length ≤ m + 4 := by
        have := (cursor_lt_iff S.length m).not.mp h
        omega
      rw [List.getD_eq_default S 0 hge]
    · rw [hbi, cursor_succ, if_neg h]

/-- All bytes ever placed in the COMPRESS output buffer are bytes, and the
high interval end stays in 32 bits. -/
def OutBytes (e : Encoder) : Prop := (∀ b ∈ e.outBuf, b < 256) ∧ e.x2 < 2 ^ 32

theorem renormE_outBytes (fuel : Nat) :
    ∀ e : Encoder, OutBytes e → OutBytes (Encoder.renormE fuel e).2 := by
  induction fuel with
  | zero => exact fun e h => h
  | succ n ih =>
    intro e h
    unfold Encoder.renormE
    split
    · split
      · refine ih _ ⟨?_, ?_⟩
        · intro b hb
          have hb' : b ∈ e.outBuf ++ [e.x2 >>> 24] := hb
          rcases List.mem_append.mp hb' with hm | hm
          · exact h.1 b hm
          · rcases List.mem_singleton.mp hm with rfl
            rw [Nat.shiftRight_eq_div_pow]
            have := h.2
            omega
        · show ((e.x2 <<< 8) + 255) % 2 ^ 32 < 2 ^ 32
          exact Nat.mod_lt _ (by norm_num)
      · exact h
    · exact h

theorem encode_outBytes (e : Encoder) (y : Nat) (h : OutBytes e) :
    OutBytes (e.encode y).2 := by
  unfold Encoder.encode
  dsimp only
  split
  · refine renormE_outBytes 4 _ ⟨h.1, ?_⟩
    show Encoder.xmid e.x1 e.x2 e.predictor.p.1 < 2 ^ 32
    exact Nat.mod_lt _ (by norm_num)
  · exact renormE_outBytes 4 _ ⟨h.1, h.2⟩

theorem encBits_outBytes (bits : List Nat) :
    ∀ e : Encoder, OutBytes e → OutBytes (encBits bits e).2 := by
  induction bits with
  | nil => exact fun e h => h
  | cons b bs ih =>
    intro e h
    have h1 := encode_outBytes e b h
    show OutBytes (match e.encode b with
      | (false, e1) => (false, e1)
      | (true, e1) => encBits bs e1).2
    rcases he : e.encode b with ⟨bb, e1⟩
    rw [he] at h1
    cases bb
    · exact h1
    · exact ih e1 h1

theorem flush_outBytes (e : Encoder) (h : OutBytes e) : OutBytes (e.flush).2 := by
  unfold Encoder.flush
  have h1 := renormE_outBytes 4 e h
  rcases hr : Encoder.renormE 4 e with ⟨b, e1⟩
  rw [hr] at h1
  dsimp only at h1
  cases b
  · exact h1
  · dsimp only
    split
    · refine ⟨?_, h1.2⟩
      intro b hb
      have hb' : b ∈ e1.outBuf ++ [e1.x2 >>> 24] := hb
      rcases List.mem_append.mp hb' with hm | hm
      · exact h1.1 b hm
      · rcases List.mem_singleton.mp hm with rfl
        rw [Nat.shiftRight_eq_div_pow]
        have := h1.2
        omega
    · exact h1

end Fpaq0f2
namespace Fpaq0f2

/-! ## Round-trip (C1): the backward stream invariant -/

theorem take_succ_split (S buf : List Nat) (t : Nat) (h : S.take (buf.length + 1) = buf ++ [t]) :
    S.take buf.length = buf ∧ S.getD buf.length 0 = t := by
  have hlen : buf.length + 1 ≤ S.length := by
    have := congrArg List.length h
    rw [List.length_take, List.length_append] at this
    simp at this
    omega
  have hS : S = (buf ++ [t]) ++ S.drop (buf.length + 1) := by
    rw [← h, List.take_append_drop]
  constructor
  · conv_lhs => rw [hS]
    rw [List.append_assoc]
    exact List.take_left' rfl
  · conv_lhs => rw [hS]
    rw [List.append_assoc, List.getD_append_right _ _ _ _ (le_refl _)]
    simp

/-- The final archive `S` agrees with the bytes already emitted, and its
32-bit window at the emit position lies inside the coding interval. -/
def StreamOk (S : List Nat) (e : Encoder) : Prop :=
  S.take e.bufIdx = e.outBuf ∧ e.x1 ≤ win S e.bufIdx ∧ win S e.bufIdx ≤ e.x2

theorem renormE_pullback (S : List Nat) (hS : ∀ b ∈ S, b < 256) (fuel : Nat) :
    ∀ e : Encoder, e.x1 ≤ e.x2 → e.x2 < 2 ^ 32 → e.outBuf.length = e.bufIdx →
      (Encoder.renormE fuel e).1 = true →
      StreamOk S (Encoder.renormE fuel e).2 → StreamOk S e := by
  induction fuel with
  | zero => exact fun e _ _ _ _ h => h
  | succ n ih =>
    intro e h1 h2 hbl ht hs
    rw [Encoder.renormE] at ht hs
    by_cases hc : (e.x1 ^^^ e.x2) &&& 0xff000000 = 0
    · rw [if_pos hc] at ht hs
      by_cases hb : e.bufIdx < e.bufSize
      · rw [if_pos hb] at ht hs
        have htop : e.x1 / 2 ^ 24 = e.x2 / 2 ^ 24 :=
          (cond_iff e.x1 e.x2 (by omega) h2).mp hc
        set e1 := Encoder.shift (e.emit (e.x2 >>> 24)) with he1
        have he1x1 : e1.x1 = e.x1 % 2 ^ 24 * 256 := shift_x1 _ (by
          show (e.emit (e.x2 >>> 24)).x1 < 2 ^ 32
          unfold Encoder.emit
          dsimp only
          omega)
        have he1x2 : e1.x2 = e.x2 % 2 ^ 24 * 256 + 255 := shift_x2 _ (by
          show (e.emit (e.x2 >>> 24)).x2 < 2 ^ 32
          unfold Encoder.emit
          dsimp only
          omega)
        have h1n : e1.x1 ≤ e1.x2 := by
          rw [he1x1, he1x2]
          have : e.x1 % 2 ^ 24 ≤ e.x2 % 2 ^ 24 := by omega
          omega
        have h2n : e1.x2 < 2 ^ 32 := by
          rw [he1x2]
          omega
        have he1buf : e1.outBuf = e.outBuf ++ [e.x2 >>> 24] := rfl
        have he1idx : e1.bufIdx = e.bufIdx + 1 := rfl
        have hbl1 : e1.outBuf.length = e1.bufIdx := by
          rw [he1buf, he1idx, List.length_append, hbl]
          rfl
        obtain ⟨hTake, hLo, hHi⟩ := ih e1 h1n h2n hbl1 ht hs
        rw [he1idx] at hTake hLo hHi
        have htk : S.take (e.outBuf.length + 1) = e.outBuf ++ [e.x2 >>> 24] := by
          rw [hbl]
          rw [hTake, he1buf]
        obtain ⟨htk0, hgd⟩ := take_succ_split S e.outBuf (e.x2 >>> 24) htk
        rw [hbl] at htk0 hgd
        refine ⟨htk0, ?_, ?_⟩
        · rw [win_peel S hS e.bufIdx, hgd]
          rw [he1x1] at hLo
          have hdiv : e.x1 % 2 ^ 24 ≤ win S (e.bufIdx + 1) / 2 ^ 8 := by omega
          rw [Nat.shiftRight_eq_div_pow]
          omega
        · rw [win_peel S hS e.bufIdx, hgd]
          rw [he1x2] at hHi
          have hdiv : win S (e.bufIdx + 1) / 2 ^ 8 ≤ e.x2 % 2 ^ 24 := by omega
          rw [Nat.shiftRight_eq_div_pow]
          omega
      · rw [if_neg hb] at ht
        simp at ht
    · rw [if_neg hc] at hs
      exact hs

/-- The remainder of the COMPRESS run from state `e`: the remaining bits are
encoded successfully, the coder is flushed successfully, and the final output
buffer is the archive `S`. -/
def Pipeline (S : List Nat) (bits : List Nat) (e : Encoder) : Prop :=
  (encBits bits e).1 = true ∧ ((encBits bits e).2.flush).1 = true ∧
  ((encBits bits e).2.flush).2.outBuf = S

theorem pipeline_cons (S : List Nat) (y : Nat) (bits : List Nat) (e : Encoder)
    (h : Pipeline S (y :: bits) e) :
    (e.encode y).1 = true ∧ Pipeline S bits (e.encode y).2 := by
  obtain ⟨h1, h2, h3⟩ := h
  have hm : encBits (y :: bits) e = match e.encode y with
      | (false, e1) => (false, e1)
      | (true, e1) => encBits bits e1 := rfl
  rw [hm] at h1 h2 h3
  rcases he : e.encode y with ⟨bb, e1⟩
  rw [he] at h1 h2 h3
  cases bb
  · dsimp only at h1
    exact absurd h1 (by simp)
  · dsimp only at h1 h2 h3
    exact ⟨rfl, h1, h2, h3⟩

/-- The narrowed interval of `narrowStep` sits inside the old interval and
the step touches nothing but the predictor and the interval. -/
theorem narrowStep_spec (e : Encoder) (y : Nat) (hok : CoderOk e) :
    e.x1 ≤ (narrowStep e y).x1 ∧ (narrowStep e y).x2 ≤ e.x2 ∧
    (narrowStep e y).x1 ≤ (narrowStep e y).x2 ∧ (narrowStep e y).x2 < 2 ^ 32 ∧
    (narrowStep e y).outBuf = e.outBuf ∧ (narrowStep e y).bufIdx = e.bufIdx ∧
    (narrowStep e y).bufSize = e.bufSize ∧ (narrowStep e y).inBuf = e.inBuf ∧
    (narrowStep e y).x = e.x ∧
    (narrowStep e y).predictor = (e.predictor.p.2).update y ∧
    (y ≠ 0 → (narrowStep e y).x1 = e.x1 ∧
      (narrowStep e y).x2 = Encoder.xmid e.x1 e.x2 e.predictor.p.1) ∧
    (y = 0 → (narrowStep e y).x1 = Encoder.xmid e.x1 e.x2 e.predictor.p.1 + 1 ∧
      (narrowStep e y).x2 = e.x2) := by
  have htab := hok.1
  have h1 := hok.2.1
  have h2 := hok.2.2.1
  have htop := hok.2.2.2
  have hp : e.predictor.p.1 ≤ 65535 := p_le e.predictor htab
  have hlt : e.x1 < e.x2 := by
    rcases Nat.lt_or_ge e.x1 e.x2 with h | h
    · exact h
    · exact absurd (by omega : e.x1 = e.x2) (fun hq => htop (by rw [hq]))
  have hxm1 : e.x1 ≤ Encoder.xmid e.x1 e.x2 e.predictor.p.1 :=
    (xmid_spec _ _ _ h1 h2 hp).2.1
  have hxm2 : Encoder.xmid e.x1 e.x2 e.predictor.p.1 < e.x2 := xmid_lt _ _ _ hlt h2 hp
  have hmod : (Encoder.xmid e.x1 e.x2 e.predictor.p.1 + 1) % 2 ^ 32 =
      Encoder.xmid e.x1 e.x2 e.predictor.p.1 + 1 := Nat.mod_eq_of_lt (by omega)
  unfold narrowStep
  dsimp only
  by_cases hy : y ≠ 0
  · rw [if_pos hy]
    dsimp only
    exact ⟨le_refl _, by omega, by omega, by omega, rfl, rfl, rfl, rfl, rfl, rfl,
      fun _ => ⟨rfl, rfl⟩, fun h0 => absurd h0 hy⟩
  · rw [if_neg hy]
    dsimp only
    rw [hmod]
    exact ⟨by omega, le_refl _, by omega, by omega, rfl, rfl, rfl, rfl, rfl, rfl,
      fun hne => absurd (by omega : y = 0) hne, fun _ => ⟨rfl, rfl⟩⟩

theorem pipeline_streamOk (S : List Nat) (hS : ∀ b ∈ S, b < 256) (bits : List Nat) :
    ∀ e : Encoder, (∀ b ∈ bits, b ≤ 1) → CoderOk e → OutOk e → Pipeline S bits e →
      StreamOk S e := by
  induction bits with
  | nil =>
    intro e _ hok hout hp
    obtain ⟨_, hfl, hbuf⟩ := hp
    have hpe : encBits [] e = (true, e) := rfl
    rw [hpe] at hfl hbuf
    dsimp only at hfl hbuf
    unfold Encoder.flush at hfl hbuf
    have h1 := hok.2.1
    have h2 := hok.2.2.1
    rcases hr : Encoder.renormE 4 e with ⟨b, e1⟩
    rw [hr] at hfl hbuf
    cases b
    · exact absurd hfl (by simp)
    · dsimp only at hfl hbuf
      by_cases hlt : e1.bufIdx < e1.bufSize
      · rw [if_pos hlt] at hfl hbuf
        have hiv : IntervalOk (Encoder.renormE 4 e).2 :=
          renormE_four_ok e h1 h2 (by rw [hr])
        rw [hr] at hiv
        obtain ⟨q1, q2, q3⟩ := hiv
        dsimp only at q1 q2 q3
        have hout1 : OutOk (Encoder.renormE 4 e).2 := (renormE_outOk 4 e hout).1
        rw [hr] at hout1
        dsimp only at hout1
        have htd : e1.x1 / 2 ^ 24 < e1.x2 / 2 ^ 24 := by
          rcases Nat.lt_or_ge (e1.x1 / 2 ^ 24) (e1.x2 / 2 ^ 24) with h | h
          · exact h
          · exact absurd (by omega : e1.x1 / 2 ^ 24 = e1.x2 / 2 ^ 24) q3
        have hbuf1 : (e1.emit (e1.x2 >>> 24)).outBuf = e1.outBuf ++ [e1.x2 >>> 24] := rfl
        rw [hbuf1] at hbuf
        have hlen : S.length = e1.bufIdx + 1 := by
          rw [← hbuf, List.length_append, hout1.1]
          rfl
        have hs1 : StreamOk S e1 := by
          have htk : S.take (e1.outBuf.length + 1) = e1.outBuf ++ [e1.x2 >>> 24] := by
            rw [hout1.1, ← hlen, ← hbuf]
            exact List.take_length _
          obtain ⟨htk0, hgd⟩ := take_succ_split S e1.outBuf (e1.x2 >>> 24) htk
          rw [hout1.1] at htk0 hgd
          refine ⟨htk0, ?_, ?_⟩
          · rw [win_peel S hS e1.bufIdx, hgd, win_past S (e1.bufIdx + 1) (by omega),
              Nat.shiftRight_eq_div_pow]
            omega
          · rw [win_peel S hS e1.bufIdx, hgd, win_past S (e1.bufIdx + 1) (by omega),
              Nat.shiftRight_eq_div_pow]
            omega
        exact renormE_pullback S hS 4 e h1 h2 hout.1 (by rw [hr]) (by rw [hr]; exact hs1)
      · rw [if_neg hlt] at hfl
        exact absurd hfl (by simp)
  | cons y bits ih =>
    intro e hb hok hout hp
    obtain ⟨henc, hp'⟩ := pipeline_cons S y bits e hp
    have hok' : CoderOk (e.encode y).2 := encode_ok e y hok henc
    have hout' : OutOk (e.encode y).2 := (encode_outOk e y hout).1
    have hs' : StreamOk S (e.encode y).2 :=
      ih (e.encode y).2 (fun b hm => hb b (List.mem_cons_of_mem y hm)) hok' hout' hp'
    obtain ⟨hn1, hn2, hn3, hn4, hnbuf, hnidx, _, _, _, _, hy1, hy0⟩ :=
      narrowStep_spec e y hok
    have henc' : (Encoder.renormE 4 (narrowStep e y)).1 = true := by
      rw [← encode_eq]
      exact henc
    have hs'' : StreamOk S (Encoder.renormE 4 (narrowStep e y)).2 := by
      rw [← encode_eq]
      exact hs'
    have hsn : StreamOk S (narrowStep e y) :=
      renormE_pullback S hS 4 (narrowStep e y) hn3 hn4
        (by rw [hnbuf, hnidx]; exact hout.1) henc' hs''
    obtain ⟨htk, hlo, hhi⟩ := hsn
    rw [hnidx] at htk hlo hhi
    rw [hnbuf] at htk
    exact ⟨htk, by omega, by omega⟩

end Fpaq0f2
namespace Fpaq0f2

/-! ## Round-trip (C1): forward simulation of the decoder -/

/-- The decoder state `eD` tracks the encoder state `eE` over the final
archive `S`: same predictor and interval, and the decoder window holds the
32-bit big-endian view of `S` at the encoder's emit position. -/
def Sim (S : List Nat) (eE eD : Encoder) : Prop :=
  eD.predictor = eE.predictor ∧ eD.x1 = eE.x1 ∧ eD.x2 = eE.x2 ∧
  eD.inBuf = S ∧ eD.bufSize = S.length ∧
  eD.x = win S eE.bufIdx ∧ eD.bufIdx = cursor S.length eE.bufIdx

theorem narrowStep_frozen (e : Encoder) (y : Nat) :
    (narrowStep e y).x = e.x ∧ (narrowStep e y).bufIdx = e.bufIdx ∧
    (narrowStep e y).inBuf = e.inBuf ∧ (narrowStep e y).bufSize = e.bufSize ∧
    (narrowStep e y).outBuf = e.outBuf := by
  unfold narrowStep
  dsimp only
  split <;> exact ⟨rfl, rfl, rfl, rfl, rfl⟩

theorem narrowStep_congr (eE eD : Encoder) (y : Nat) (hpred : eD.predictor = eE.predictor)
    (hx1 : eD.x1 = eE.x1) (hx2 : eD.x2 = eE.x2) :
    (narrowStep eD y).predictor = (narrowStep eE y).predictor ∧
    (narrowStep eD y).x1 = (narrowStep eE y).x1 ∧
    (narrowStep eD y).x2 = (narrowStep eE y).x2 := by
  unfold narrowStep
  dsimp only
  rw [hpred, hx1, hx2]
  split <;> exact ⟨rfl, rfl, rfl⟩

theorem renorm_lockstep (S : List Nat) (hS : ∀ b ∈ S, b < 256) (fuel : Nat) :
    ∀ eE eD : Encoder, Sim S eE eD → eE.x1 ≤ eE.x2 → eE.x2 < 2 ^ 32 →
      (Encoder.renormE fuel eE).1 = true →
      Sim S (Encoder.renormE fuel eE).2 (Encoder.renormD fuel eD) := by
  induction fuel with
  | zero => exact fun eE eD hsim _ _ _ => hsim
  | succ n ih =>
    intro eE eD hsim h1 h2 ht
    obtain ⟨hpred, hx1, hx2, hin, hbs, hx, hbi⟩ := hsim
    rw [Encoder.renormE] at ht ⊢
    rw [Encoder.renormD]
    by_cases hc : (eE.x1 ^^^ eE.x2) &&& 0xff000000 = 0
    · rw [if_pos hc] at ht ⊢
      by_cases hb : eE.bufIdx < eE.bufSize
      · rw [if_pos hb] at ht ⊢
        rw [if_pos (show (eD.x1 ^^^ eD.x2) &&& 0xff000000 = 0 by rw [hx1, hx2]; exact hc)]
        dsimp only
        have htop : eE.x1 / 2 ^ 24 = eE.x2 / 2 ^ 24 :=
          (cond_iff eE.x1 eE.x2 (by omega) h2).mp hc
        have hrb := readByteD_spec (Encoder.shift eD) S eE.bufIdx
          (by show eD.inBuf = S; exact hin)
          (by show eD.bufSize = S.length; exact hbs)
          (by show eD.bufIdx = cursor S.length eE.bufIdx; exact hbi)
        obtain ⟨hrv, hridx, hrpred, hrin, hrbs, hrx1, hrx2, hrx⟩ := hrb
        set rc := Encoder.readByteD (Encoder.shift eD) with hrc
        set eE1 := Encoder.shift (eE.emit (eE.x2 >>> 24)) with heE1
        have heE1x1 : eE1.x1 = eE.x1 % 2 ^ 24 * 256 := shift_x1 _ (by
          show (eE.emit (eE.x2 >>> 24)).x1 < 2 ^ 32
          unfold Encoder.emit
          dsimp only
          omega)
        have heE1x2 : eE1.x2 = eE.x2 % 2 ^ 24 * 256 + 255 := shift_x2 _ (by
          show (eE.emit (eE.x2 >>> 24)).x2 < 2 ^ 32
          unfold Encoder.emit
          dsimp only
          omega)
        have h1n : eE1.x1 ≤ eE1.x2 := by
          rw [heE1x1, heE1x2]
          have : eE.x1 % 2 ^ 24 ≤ eE.x2 % 2 ^ 24 := by omega
          omega
        have h2n : eE1.x2 < 2 ^ 32 := by
          rw [heE1x2]
          omega
        refine ih eE1 _ ⟨?_, ?_, ?_, ?_, ?_, ?_, ?_⟩ h1n h2n ht
        · show rc.2.predictor = eE1.predictor
          rw [hrpred]
          exact hpred
        · show rc.2.x1 = eE1.x1
          rw [hrx1]
          show (eD.x1 <<< 8) % 2 ^ 32 = (eE.x1 <<< 8) % 2 ^ 32
          rw [hx1]
        · show rc.2.x2 = eE1.x2
          rw [hrx2]
          show ((eD.x2 <<< 8) + 255) % 2 ^ 32 = ((eE.x2 <<< 8) + 255) % 2 ^ 32
          rw [hx2]
        · show rc.2.inBuf = S
          rw [hrin]
          exact hin
        · show rc.2.bufSize = S.length
          rw [hrbs]
          exact hbs
        · show ((rc.2.x <<< 8) + rc.1) % 2 ^ 32 = win S eE1.bufIdx
          have hbidx : eE1.bufIdx = eE.bufIdx + 1 := rfl
          rw [hbidx, hrv, hrx]
          show ((eD.x <<< 8) + S.getD (eE.bufIdx + 4) 0) % 2 ^ 32 = win S (eE.bufIdx + 1)
          rw [hx]
          exact win_shift S hS eE.bufIdx
        · show rc.2.bufIdx = cursor S.length eE1.bufIdx
          have hbidx : eE1.bufIdx = eE.bufIdx + 1 := rfl
          rw [hbidx, hridx]
      · rw [if_neg hb] at ht
        simp at ht
    · rw [if_neg hc] at ht ⊢
      rw [if_neg (show ¬ (eD.x1 ^^^ eD.x2) &&& 0xff000000 = 0 by rw [hx1, hx2]; exact hc)]
      exact ⟨hpred, hx1, hx2, hin, hbs, hx, hbi⟩

theorem decode_sim (S : List Nat) (hS : ∀ b ∈ S, b < 256) (eE eD : Encoder) (y : Nat)
    (hsim : Sim S eE eD) (hok : CoderOk eE) (hy : y ≤ 1)
    (henc : (eE.encode y).1 = true)
    (hlo : (narrowStep eE y).x1 ≤ win S eE.bufIdx)
    (hhi : win S eE.bufIdx ≤ (narrowStep eE y).x2) :
    (eD.decode).1 = y ∧ Sim S (eE.encode y).2 (eD.decode).2 := by
  obtain ⟨hpred, hx1, hx2, hin, hbs, hx, hbi⟩ := hsim
  obtain ⟨hn1, hn2, hn3, hn4, hnbuf, hnidx, hnbs, hnin, hnx, hnpred, hy1, hy0⟩ :=
    narrowStep_spec eE y hok
  have hxm : Encoder.xmid eD.x1 eD.x2 eD.predictor.p.1 =
      Encoder.xmid eE.x1 eE.x2 eE.predictor.p.1 := by rw [hx1, hx2, hpred]
  have hxmlt : Encoder.xmid eE.x1 eE.x2 eE.predictor.p.1 < 2 ^ 32 :=
    Nat.mod_lt _ (by norm_num)
  have hbit : (if eD.x ≤ Encoder.xmid eD.x1 eD.x2 eD.predictor.p.1 then (1 : Nat) else 0)
      = y := by
    by_cases hyz : y = 0
    · subst hyz
      obtain ⟨ha, _⟩ := hy0 rfl
      rw [ha] at hlo
      rw [hxm, hx]
      rw [if_neg (by omega)]
    · obtain ⟨_, hb2⟩ := hy1 hyz
      rw [hb2] at hhi
      rw [hxm, hx]
      rw [if_pos (by omega)]
      omega
  constructor
  · rw [decode_eq]
    exact hbit
  · rw [decode_eq, encode_eq]
    dsimp only
    rw [hbit]
    obtain ⟨hcp, hc1, hc2⟩ := narrowStep_congr eE eD y hpred hx1 hx2
    obtain ⟨hfx, hfidx, hfin, hfbs, _⟩ := narrowStep_frozen eD y
    refine renorm_lockstep S hS 4 (narrowStep eE y) (narrowStep eD y)
      ⟨hcp, hc1, hc2, ?_, ?_, ?_, ?_⟩ hn3 hn4 (by rw [← encode_eq]; exact henc)
    · rw [hfin]
      exact hin
    · rw [hfbs]
      exact hbs
    · rw [hfx, hnidx, hx]
    · rw [hfidx, hnidx, hbi]

theorem encBits_cons_true (y : Nat) (bs : List Nat) (e : Encoder)
    (h : (e.encode y).1 = true) :
    encBits (y :: bs) e = encBits bs (e.encode y).2 := by
  have hm : encBits (y :: bs) e = match e.encode y with
      | (false, e1) => (false, e1)
      | (true, e1) => encBits bs e1 := rfl
  rw [hm]
  rcases he : e.encode y with ⟨bb, e1⟩
  rw [he] at h
  cases bb
  · exact absurd h (by simp)
  · rfl

theorem decBits_sim (S : List Nat) (hS : ∀ b ∈ S, b < 256) (bits : List Nat) :
    ∀ (rest : List Nat) (eE eD : Encoder), (∀ b ∈ bits, b ≤ 1) → (∀ b ∈ rest, b ≤ 1) →
      Sim S eE eD → CoderOk eE → OutOk eE → Pipeline S (bits ++ rest) eE →
      (decBits bits.length eD).1 = bits ∧
      Sim S (encBits bits eE).2 (decBits bits.length eD).2 ∧
      CoderOk (encBits bits eE).2 ∧ OutOk (encBits bits eE).2 ∧
      Pipeline S rest (encBits bits eE).2 := by
  induction bits with
  | nil =>
    intro rest eE eD _ _ hsim hok hout hp
    exact ⟨rfl, hsim, hok, hout, hp⟩
  | cons y bs ih =>
    intro rest eE eD hb hr hsim hok hout hp
    obtain ⟨henc, hp'⟩ := pipeline_cons S y (bs ++ rest) eE hp
    have hok' : CoderOk (eE.encode y).2 := encode_ok eE y hok henc
    have hout' : OutOk (eE.encode y).2 := (encode_outOk eE y hout).1
    have hsOk : StreamOk S (eE.encode y).2 :=
      pipeline_streamOk S hS (bs ++ rest) (eE.encode y).2
        (by
          intro b hm
          rcases List.mem_append.mp hm with hm | hm
          · exact hb b (List.mem_cons_of_mem y hm)
          · exact hr b hm)
        hok' hout' hp'
    obtain ⟨hn1, hn2, hn3, hn4, hnbuf, hnidx, _, _, _, _, _, _⟩ := narrowStep_spec eE y hok
    have hsn : StreamOk S (narrowStep eE y) :=
      renormE_pullback S hS 4 (narrowStep eE y) hn3 hn4
        (by rw [hnbuf, hnidx]; exact hout.1)
        (by rw [← encode_eq]; exact henc)
        (by rw [← encode_eq]; exact hsOk)
    have hy : y ≤ 1 := hb y (List.mem_cons_self y bs)
    have hds := decode_sim S hS eE eD y ⟨hsim.1, hsim.2.1, hsim.2.2.1, hsim.2.2.2.1,
      hsim.2.2.2.2.1, hsim.2.2.2.2.2.1, hsim.2.2.2.2.2.2⟩ hok hy henc
      (by have := hsn.2.1; rwa [hnidx] at this)
      (by have := hsn.2.2; rwa [hnidx] at this)
    obtain ⟨hres1, hres2, hres3, hres4, hres5⟩ := ih rest (eE.encode y).2 (eD.decode).2
      (fun b hm => hb b (List.mem_cons_of_mem y hm)) hr hds.2 hok' hout' hp'
    have hdb : decBits (bs.length + 1) eD =
        (eD.decode.1 :: (decBits bs.length eD.decode.2).1,
          (decBits bs.length eD.decode.2).2) := rfl
    rw [encBits_cons_true y bs eE henc]
    refine ⟨?_, hres2, hres3, hres4, hres5⟩
    show (decBits (bs.length + 1) eD).1 = y :: bs
    rw [hdb]
    dsimp only
    rw [hds.1, hres1]
end Fpaq0f2
namespace Fpaq0f2

/-! ## Round-trip (C1): byte loop, constructor simulation, outer loop -/

theorem bitsDown_length (k c : Nat) : (bitsDown k c).length = k := by
  induction k with
  | zero => rfl
  | succ j ih =>
    show (((c >>> j) &&& 1) :: bitsDown j c).length = j + 1
    rw [List.length_cons, ih]

/-- The inner `while (c < 256) c += c + decode()` loop: with fuel `k` and the
next `k` decoded bits being the top-down low bits of `c`, it folds them into
the accumulator. -/
theorem decodeByteLoop_spec :
    ∀ (k acc c : Nat) (eD : Encoder), k ≤ 8 → acc < 2 ^ (9 - k) →
      (decBits k eD).1 = bitsDown k c →
      decodeByteLoop k acc eD = (acc * 2 ^ k + c % 2 ^ k, (decBits k eD).2) := by
  intro k
  induction k with
  | zero =>
    intro acc c eD _ _ _
    show (acc, eD) = (acc * 1 + c % 1, eD)
    rw [Prod.mk.injEq]
    refine ⟨by omega, rfl⟩
  | succ j ih =>
    intro acc c eD hk hacc hbits
    have hacc256 : acc < 256 := by
      have h1 : 2 ^ (9 - (j + 1)) ≤ 2 ^ 8 := Nat.pow_le_pow_right (by norm_num) (by omega)
      omega
    have hdb : decBits (j + 1) eD =
        (eD.decode.1 :: (decBits j eD.decode.2).1, (decBits j eD.decode.2).2) := rfl
    rw [hdb] at hbits
    have hbitsD : bitsDown (j + 1) c = ((c >>> j) &&& 1) :: bitsDown j c := rfl
    rw [hbitsD] at hbits
    dsimp only at hbits
    rw [List.cons.injEq] at hbits
    obtain ⟨hhead, htail⟩ := hbits
    have hbit : eD.decode.1 = c / 2 ^ j % 2 := by
      rw [hhead, Nat.shiftRight_eq_div_pow, Nat.and_one_is_mod]
    have hacc' : eD.decode.1 + (acc + acc) < 2 ^ (9 - j) := by
      have h9 : 9 - j = (9 - (j + 1)) + 1 := by omega
      rw [h9, pow_succ]
      have hb1 : eD.decode.1 ≤ 1 := by
        rw [hbit]
        omega
      omega
    have hrec := ih (acc + acc + eD.decode.1) c eD.decode.2 (by omega) (by omega) htail
    show decodeByteLoop (j + 1) acc eD = _
    unfold decodeByteLoop
    rw [if_pos hacc256]
    dsimp only
    rw [hrec, hdb]
    dsimp only
    rw [Prod.mk.injEq]
    refine ⟨?_, rfl⟩
    have hmod : c % 2 ^ (j + 1) = c % 2 ^ j + 2 ^ j * (c / 2 ^ j % 2) := by
      rw [pow_succ, Nat.mod_mul]
    rw [hbit, hmod, pow_succ]
    ring

/-- One constructor-loop iteration, in terms of the input stream. -/
theorem initStepD_step (e : Encoder) (hx : e.x < 2 ^ 24)
    (hbytes : ∀ b ∈ e.inBuf, b < 256) (hbs : e.bufSize = e.inBuf.length) :
    (Encoder.initStepD e).1.x = e.x * 256 + e.inBuf.getD e.bufIdx 0 ∧
    (Encoder.initStepD e).1.bufIdx =
      (if e.bufIdx ≤ e.inBuf.length then e.bufIdx + 1 else e.bufIdx) ∧
    (Encoder.initStepD e).1.inBuf = e.inBuf ∧
    (Encoder.initStepD e).1.bufSize = e.bufSize := by
  have hc := getD_lt e.inBuf hbytes e.bufIdx
  unfold Encoder.initStepD
  rw [hbs]
  by_cases h : e.bufIdx ≤ e.inBuf.length
  · rw [if_pos h]
    dsimp only
    refine ⟨?_, by rw [if_pos h], rfl, rfl⟩
    have hand : e.inBuf.getD e.bufIdx 0 &&& 0xff = e.inBuf.getD e.bufIdx 0 := by
      rw [and255_eq_mod, Nat.mod_eq_of_lt hc]
    rw [hand, Nat.shiftLeft_eq]
    have h256 : (2 : Nat) ^ 8 = 256 := by norm_num
    rw [h256]
    omega
  · rw [if_neg h]
    dsimp only
    refine ⟨?_, by rw [if_neg h], rfl, rfl⟩
    have hd : e.inBuf.getD e.bufIdx 0 = 0 := List.getD_eq_default _ _ (by omega)
    rw [hd, Nat.shiftLeft_eq]
    have h256 : (2 : Nat) ^ 8 = 256 := by norm_num
    rw [h256]
    omega

/-- The DECOMPRESS constructor puts the decoder in simulation with a freshly
constructed COMPRESS coder over the archive `S`. -/
theorem initDecompress_sim (S : List Nat) (hS : ∀ b ∈ S, b < 256) (bufsize : Nat) :
    Sim S (Encoder.initCompress bufsize) (Encoder.initDecompress S).1 := by
  have c0 := getD_lt S hS 0
  have c1 := getD_lt S hS 1
  have c2 := getD_lt S hS 2
  have c3 := getD_lt S hS 3
  obtain ⟨w1, i1, n1, b1⟩ := initStepD_step
    (⟨Predictor.init, S, [], 0, S.length, 0, 0xffffffff, 0⟩ : Encoder)
    (by norm_num) hS rfl
  dsimp only at w1 i1 n1 b1
  rw [if_pos (Nat.zero_le S.length)] at i1
  rw [Nat.zero_mul, Nat.zero_add] at w1
  rw [Nat.zero_add] at i1
  set E1 := (Encoder.initStepD ⟨Predictor.init, S, [], 0, S.length, 0, 0xffffffff, 0⟩).1 with hE1
  obtain ⟨w2, i2, n2, b2⟩ := initStepD_step E1 (by rw [w1]; omega)
    (by rw [n1]; exact hS) (by rw [b1, n1])
  rw [n1, i1, w1] at w2
  rw [n1, i1] at i2
  rw [n1] at n2
  rw [b1] at b2
  set E2 := (Encoder.initStepD E1).1 with hE2
  obtain ⟨w3, i3, n3, b3⟩ := initStepD_step E2
    (by rw [w2]; omega) (by rw [n2]; exact hS) (by rw [b2, n2])
  rw [n2] at n3
  rw [b2] at b3
  rw [n2] at w3 i3
  have g2 : S.getD E2.bufIdx 0 = S.getD 2 0 := by
    rw [i2]
    by_cases h : 1 ≤ S.length
    · rw [if_pos h]
    · rw [if_neg h, List.getD_eq_default _ _ (by omega), List.getD_eq_default _ _ (by omega)]
  rw [g2, w2] at w3
  set E3 := (Encoder.initStepD E2).1 with hE3
  obtain ⟨w4, i4, n4, b4⟩ := initStepD_step E3
    (by rw [w3]; omega) (by rw [n3]; exact hS) (by rw [b3, n3])
  rw [n3] at n4
  rw [b3] at b4
  rw [n3] at w4 i4
  have g3 : S.getD E3.bufIdx 0 = S.getD 3 0 := by
    rw [i3, i2]
    by_cases h1 : 1 ≤ S.length
    · rw [if_pos h1]
      by_cases h2 : 1 + 1 ≤ S.length
      · rw [if_pos h2]
      · rw [if_neg h2,
          List.getD_eq_default _ _ (by omega), List.getD_eq_default _ _ (by omega)]
    · rw [if_neg h1, if_neg h1,
        List.getD_eq_default _ _ (by omega), List.getD_eq_default _ _ (by omega)]
  rw [g3, w3] at w4
  set E4 := (Encoder.initStepD E3).1 with hE4
  have hgoal : (Encoder.initDecompress S).1 = E4 := rfl
  obtain ⟨hfp, hf1, hf2⟩ := initDecompress_frozen S
  rw [hgoal] at hfp hf1 hf2
  refine ⟨hfp, hf1, hf2, n4, b4, ?_, ?_⟩
  · show E4.x = win S (Encoder.initCompress bufsize).bufIdx
    rw [show (Encoder.initCompress bufsize).bufIdx = 0 from rfl, w4]
    unfold win
    rw [show (0 : Nat) + 1 = 1 from rfl, show (0 : Nat) + 2 = 2 from rfl,
      show (0 : Nat) + 3 = 3 from rfl]
    omega
  · show E4.bufIdx = cursor S.length (Encoder.initCompress bufsize).bufIdx
    rw [show (Encoder.initCompress bufsize).bufIdx = 0 from rfl, i4, i3, i2]
    rcases Nat.lt_or_ge S.length 4 with hL | hL
    · rw [cursor_low _ _ (by omega)]
      by_cases h1 : 1 ≤ S.length
      · rw [if_pos h1]
        by_cases h2 : 1 + 1 ≤ S.length
        · rw [if_pos h2]
          by_cases h3 : 1 + 1 + 1 ≤ S.length
          · rw [if_pos h3]
            omega
          · rw [if_neg h3]
            omega
        · rw [if_neg h2, if_neg h2]
          omega
      · rw [if_neg h1, if_neg h1, if_neg h1]
        omega
    · rw [cursor_high_in _ _ (by omega), if_pos (show 1 ≤ S.length by omega),
        if_pos (show 1 + 1 ≤ S.length by omega), if_pos (show 1 + 1 + 1 ≤ S.length by omega)]

/-- The outer decompress loop reproduces the source bytes, given that the
remaining encoder pipeline frames exactly those bytes. -/
theorem decompressLoop_sim (S : List Nat) (hS : ∀ b ∈ S, b < 256) :
    ∀ (s : List Nat) (fuel idx bufsize : Nat) (out : List Nat) (eE eD : Encoder),
      (∀ c ∈ s, c < 256) → Sim S eE eD → CoderOk eE → OutOk eE →
      Pipeline S (frameBits s ++ [0]) eE →
      s.length < fuel → idx + s.length ≤ bufsize →
      decompressLoop fuel eD idx out bufsize = (idx + s.length, out ++ s) := by
  intro s
  induction s with
  | nil =>
    intro fuel idx bufsize out eE eD _ hsim hok hout hp hfuel hcap
    rcases fuel with _ | f
    · exact absurd hfuel (by omega)
    · have hp0 : Pipeline S [0] eE := hp
      obtain ⟨henc, hp'⟩ := pipeline_cons S 0 [] eE hp0
      have hok' := encode_ok eE 0 hok henc
      have hout' := (encode_outOk eE 0 hout).1
      have hsOk : StreamOk S (eE.encode 0).2 :=
        pipeline_streamOk S hS [] _ (by intro b hb; cases hb) hok' hout' hp'
      obtain ⟨hn1, hn2, hn3, hn4, hnbuf, hnidx, _, _, _, _, _, _⟩ := narrowStep_spec eE 0 hok
      have hsn : StreamOk S (narrowStep eE 0) :=
        renormE_pullback S hS 4 _ hn3 hn4 (by rw [hnbuf, hnidx]; exact hout.1)
          (by rw [← encode_eq]; exact henc) (by rw [← encode_eq]; exact hsOk)
      have hds := decode_sim S hS eE eD 0 hsim hok (by omega) henc
        (by have := hsn.2.1; rwa [hnidx] at this)
        (by have := hsn.2.2; rwa [hnidx] at this)
      unfold decompressLoop
      dsimp only
      rw [hds.1, if_pos rfl]
      simp
  | cons c srest ih =>
    intro fuel idx bufsize out eE eD hcs hsim hok hout hp hfuel hcap
    rcases fuel with _ | f
    · exact absurd hfuel (by omega)
    · have hshape : frameBits (c :: srest) ++ [0] =
          1 :: (bitsDown 8 c ++ (frameBits srest ++ [0])) := by
        show (1 :: (bitsDown 8 c ++ frameBits srest)) ++ [0] = _
        rw [List.cons_append, List.append_assoc]
      rw [hshape] at hp
      obtain ⟨henc, hp'⟩ := pipeline_cons S 1 _ eE hp
      have hok' := encode_ok eE 1 hok henc
      have hout' := (encode_outOk eE 1 hout).1
      have hrest1 : ∀ b ∈ frameBits srest ++ [0], b ≤ 1 := by
        intro b hb
        rcases List.mem_append.mp hb with hb | hb
        · exact frameBits_le_one srest b hb
        · rcases List.mem_singleton.mp hb with rfl
          omega
      have hsOk : StreamOk S (eE.encode 1).2 :=
        pipeline_streamOk S hS (bitsDown 8 c ++ (frameBits srest ++ [0])) _
          (by
            intro b hb
            rcases List.mem_append.mp hb with hb | hb
            · exact bitsDown_le_one 8 c b hb
            · exact hrest1 b hb)
          hok' hout' hp'
      obtain ⟨hn1, hn2, hn3, hn4, hnbuf, hnidx, _, _, _, _, _, _⟩ := narrowStep_spec eE 1 hok
      have hsn : StreamOk S (narrowStep eE 1) :=
        renormE_pullback S hS 4 _ hn3 hn4 (by rw [hnbuf, hnidx]; exact hout.1)
          (by rw [← encode_eq]; exact henc) (by rw [← encode_eq]; exact hsOk)
      have hds := decode_sim S hS eE eD 1 hsim hok (by omega) henc
        (by have := hsn.2.1; rwa [hnidx] at this)
        (by have := hsn.2.2; rwa [hnidx] at this)
      obtain ⟨hr1, hr2, hr3, hr4, hr5⟩ := decBits_sim S hS (bitsDown 8 c)
        (frameBits srest ++ [0]) (eE.encode 1).2 (eD.decode).2
        (bitsDown_le_one 8 c) hrest1 hds.2 hok' hout' hp'
      rw [bitsDown_length] at hr1 hr2
      have hdbl := decodeByteLoop_spec 8 1 c (eD.decode).2 (le_refl 8) (by norm_num) hr1
      unfold decompressLoop
      dsimp only
      rw [hds.1, if_neg (by norm_num), hdbl]
      dsimp only
      rw [if_pos (show idx < bufsize by
        have : (c :: srest).length = srest.length + 1 := rfl
        omega)]
      have hc256 : c % 2 ^ 8 = c := Nat.mod_eq_of_lt (hcs c (List.mem_cons_self c srest))
      have hbyte : 1 * 2 ^ 8 + c % 2 ^ 8 - 256 = c := by
        rw [hc256]
        omega
      rw [hbyte]
      rw [ih f (idx + 1) bufsize (out ++ [c]) (encBits (bitsDown 8 c) (eE.encode 1).2).2
        (decBits 8 (eD.decode).2).2 (fun x hx => hcs x (List.mem_cons_of_mem c hx))
        hr2 hr3 hr4 hr5
        (by
          have : (c :: srest).length = srest.length + 1 := rfl
          omega)
        (by
          have : (c :: srest).length = srest.length + 1 := rfl
          omega)]
      rw [Prod.mk.injEq]
      constructor
      · have : (c :: srest).length = srest.length + 1 := rfl
        omega
      · rw [List.append_assoc]
        rfl

end Fpaq0f2
namespace Fpaq0f2

/-- C1: for every byte sequence `s`, if `fpaq0f2_compress` succeeds with a
large enough output buffer (result `L ≤ bufsize`, so the run was not cut off)
producing the compressed bytes `out` of length `L`, then `fpaq0f2_decompress`
on `out` with an output buffer of at least `|s|` bytes writes back exactly `s`
and returns `|s|`. -/
theorem c1_round_trip (s : List Nat) (hs : ∀ c ∈ s, c < 256) (bufsize outcap L : Nat)
    (out : List Nat)
    (hc : fpaq0f2_compress false s false bufsize = some (L, out)) (hL : L ≤ bufsize)
    (hcap : s.length ≤ outcap) :
    fpaq0f2_decompress false out false outcap = some (s.length, s) := by
  unfold fpaq0f2_compress at hc
  rw [if_neg (by simp), if_neg (by simp)] at hc
  rcases h1 : compressLoop s (Encoder.initCompress bufsize) with ⟨fl1, e⟩
  rw [h1] at hc
  cases fl1
  · dsimp only at hc
    rw [Option.some_inj, Prod.mk.injEq] at hc
    omega
  · dsimp only at hc
    rcases h2 : e.encode 0 with ⟨fl2, e1⟩
    rw [h2] at hc
    cases fl2
    · dsimp only at hc
      rw [Option.some_inj, Prod.mk.injEq] at hc
      omega
    · dsimp only at hc
      rcases h3 : e1.flush with ⟨fl3, e2⟩
      rw [h3] at hc
      cases fl3
      · dsimp only at hc
        rw [Option.some_inj, Prod.mk.injEq] at hc
        omega
      · dsimp only at hc
        rw [Option.some_inj, Prod.mk.injEq] at hc
        obtain ⟨hLe, hOut⟩ := hc
        rw [compressLoop_eq] at h1
        have hOB0 : OutBytes (Encoder.initCompress bufsize) :=
          ⟨fun b hb => absurd hb (List.not_mem_nil b),
            by show (0xffffffff : Nat) < 2 ^ 32; norm_num⟩
        have hOB1 : OutBytes e := by
          have h := encBits_outBytes (frameBits s) (Encoder.initCompress bufsize) hOB0
          rw [h1] at h
          exact h
        have hOB2 : OutBytes e1 := by
          have h := encode_outBytes e 0 hOB1
          rw [h2] at h
          exact h
        have hOB3 : OutBytes e2 := by
          have h := flush_outBytes e1 hOB2
          rw [h3] at h
          exact h
        have hSbytes : ∀ b ∈ out, b < 256 := by
          rw [← hOut]
          exact hOB3.1
        have hEnc : encBits (frameBits s ++ [0]) (Encoder.initCompress bufsize) =
            (true, e1) := by
          rw [encBits_append, h1]
          show encBits [0] e = (true, e1)
          show (match e.encode 0 with
            | (false, e1) => (false, e1)
            | (true, e1) => encBits [] e1) = (true, e1)
          rw [h2]
          rfl
        have hpipe : Pipeline out (frameBits s ++ [0]) (Encoder.initCompress bufsize) := by
          refine ⟨by rw [hEnc], ?_, ?_⟩
          · rw [hEnc]
            dsimp only
            rw [h3]
          · rw [hEnc]
            dsimp only
            rw [h3]
            exact hOut
        have hsim := initDecompress_sim out hSbytes bufsize
        have hok0 : CoderOk (Encoder.initCompress bufsize) :=
          reached_ok _ (Reached.initC bufsize)
        have hout0 : OutOk (Encoder.initCompress bufsize) := ⟨rfl, Nat.zero_le _⟩
        have hloop := decompressLoop_sim out hSbytes s (outcap + 1) 0 outcap []
          (Encoder.initCompress bufsize) (Encoder.initDecompress out).1 hs hsim hok0
          hout0 hpipe (by omega) (by omega)
        unfold fpaq0f2_decompress
        rw [if_neg (by simp), if_neg (by simp), hloop, Nat.zero_add, List.nil_append]

/-- C1 witness: compressing the empty byte sequence into a 16-byte buffer
yields the single archive byte `0xFF`, and decompressing it writes back the
empty sequence and returns 0. -/
theorem c1_round_trip_witness :
    fpaq0f2_compress false [] false 16 = some (1, [255]) ∧
    (1 ≤ 16 ∧ ([] : List Nat).length ≤ 0) ∧
    fpaq0f2_decompress false [255] false 0 = some (0, []) :=
  ⟨rfl, ⟨by norm_num, by simp⟩,
    c1_round_trip [] (by intro c hc; cases hc) 16 0 1 [255] rfl (by norm_num) (by simp)⟩

end Fpaq0f2
